import Mathlib

/-!
# Resampler filter generator (`build-scripts/gen_audio_resampler_filter.c`)

A shallow embedding of the generator of SDL's audio resampler filter tables,
followed by theorems about it.

Modelling conventions.

* C `int` values are `Nat`/`Int` (no overflow is modelled).
* C `float`/`double` values are elements of an arbitrary linearly ordered
  field `α`, i.e. arithmetic is exact: the rounding of the narrowing casts and
  of the floating point operations, infinities and NaN are outside the model.
  `sqrt`, `sinf` and `M_PI` belong to libm and are passed as parameters; the
  theorems about real arithmetic instantiate them with `Real.sqrt`,
  `Real.sin` and `Real.pi`, or, where the value of the constant matters, with
  `M_PI_float`, the single precision value of `M_PI` that the code uses.
* The `while (1)` loop of `bessel` takes a fuel argument bounding the number
  of loop tests; running out of fuel is `none`.
* Arrays are lists; a read or write outside the buffer is `none`.
-/

namespace Resampler

/-! ## The macros -/

/-- The macro `RESAMPLER_ZERO_CROSSINGS`. -/
def RESAMPLER_ZERO_CROSSINGS : Nat := 5

/-- The macro `RESAMPLER_BITS_PER_SAMPLE`. -/
def RESAMPLER_BITS_PER_SAMPLE : Nat := 16

/-- The body of the macro `RESAMPLER_SAMPLES_PER_ZERO_CROSSING`, as a function
of the macro `RESAMPLER_BITS_PER_SAMPLE` it refers to:
`(1 << ((RESAMPLER_BITS_PER_SAMPLE / 2) + 1))`. -/
def samplesPerZeroCrossing (bitsPerSample : Nat) : Nat :=
  1 <<< ((bitsPerSample / 2) + 1)

/-- The body of the macro `RESAMPLER_FILTER_SIZE`, as a function of the two
macros it refers to:
`((RESAMPLER_SAMPLES_PER_ZERO_CROSSING * RESAMPLER_ZERO_CROSSINGS) + 1)`. -/
def filterSize (bitsPerSample zeroCrossings : Nat) : Nat :=
  (samplesPerZeroCrossing bitsPerSample * zeroCrossings) + 1

/-- The macro `RESAMPLER_SAMPLES_PER_ZERO_CROSSING`. -/
def RESAMPLER_SAMPLES_PER_ZERO_CROSSING : Nat :=
  samplesPerZeroCrossing RESAMPLER_BITS_PER_SAMPLE

/-- The macro `RESAMPLER_FILTER_SIZE`. -/
def RESAMPLER_FILTER_SIZE : Nat :=
  filterSize RESAMPLER_BITS_PER_SAMPLE RESAMPLER_ZERO_CROSSINGS

/-! ## Buffers -/

/-- The read `a[idx]` of a C array; `none` outside the buffer. -/
def load {α : Type} (a : List α) (idx : Int) : Option α :=
  if 0 ≤ idx then a[idx.toNat]? else none

/-- The write `a[idx] = v` of a C array; `none` outside the buffer. -/
def store {α : Type} (a : List α) (idx : Int) (v : α) : Option (List α) :=
  if 0 ≤ idx ∧ idx.toNat < a.length then some (a.set idx.toNat v) else none

/-! ## `bessel` -/

section Field

variable {α : Type} [LinearOrderedField α]

/-- The literal `1.0e-21f` of the loop test of `bessel`, in exact arithmetic
(the rounding of the literal to single precision is outside the model). -/
def besselThreshold : α := 1 / 10 ^ 21

/-- The `while (1)` loop of `bessel`, from a state `(i, f, i0)`:
```
const double diff = pow(xdiv2, i * 2) / pow(f, 2);
if (diff < 1.0e-21f) { break; }
i0 += diff;
i++;
f *= (double) i;
```
The first argument bounds the number of times the loop body is entered. -/
def besselLoop (xdiv2 : α) : Nat → Nat → α → α → Option α
  | 0, _, _, _ => none
  | fuel + 1, i, f, i0 =>
    let diff := xdiv2 ^ (i * 2) / f ^ 2
    if diff < besselThreshold then
      some i0
    else
      besselLoop xdiv2 fuel (i + 1) (f * ((i + 1 : Nat) : α)) (i0 + diff)

/-- The function `bessel`: `xdiv2 = x / 2.0`, `i0 = 1.0f`, `f = 1.0f`,
`i = 1`, then the loop, then `return i0`. -/
def bessel (fuel : Nat) (x : α) : Option α :=
  besselLoop (x / 2) fuel 1 1 1

/-- The series term of index `i`, `(x/2)^(2i) / (i!)^2`, as a function of
`xdiv2`. It is the value `diff` of the loop of `bessel` at loop index `i`
(where `f` is `i!`), and it is 1 for `i = 0`. -/
def besselTerm (xdiv2 : α) (i : Nat) : α :=
  xdiv2 ^ (i * 2) / ((i.factorial : Nat) : α) ^ 2

/-- The partial sum of the terms of index `0, ..., n - 1` of the series. It
is the value `i0` of the loop of `bessel` at loop index `n`. -/
def besselSeries (xdiv2 : α) (n : Nat) : α :=
  ((List.range n).map (besselTerm xdiv2)).sum

/-! ## `kaiser_and_sinc` -/

/-- The value `kaiser` of the first loop of `kaiser_and_sinc` at loop index
`i`:
`bessel(beta * sqrt(1.0 - pow(((i - lenm1) / 2.0) / lenm1div2, 2.0))) / bessel_beta`. -/
def kaiser (sqrt : α → α) (fuel : Nat) (lenm1 lenm1div2 : Int) (beta bessel_beta : α)
    (i : Int) : Option α := do
  let b ← bessel fuel
    (beta * sqrt (1 - ((((i - lenm1 : Int) : α) / 2) / (lenm1div2 : α)) ^ 2))
  pure (b / bessel_beta)

/-- The first loop of `kaiser_and_sinc`, from loop index `i`:
```
for (i = 1; i < tablelen; i++) {
    const double kaiser = ...;
    table[tablelen - i] = (float) kaiser;
}
``` -/
def windowLoop (sqrt : α → α) (fuel : Nat) (tablelen : Nat) (lenm1 lenm1div2 : Int)
    (beta bessel_beta : α) (i : Nat) (table : List α) : Option (List α) :=
  if i < tablelen then do
    let k ← kaiser sqrt fuel lenm1 lenm1div2 beta bessel_beta i
    let table ← store table ((tablelen : Int) - (i : Int)) k
    windowLoop sqrt fuel tablelen lenm1 lenm1div2 beta bessel_beta (i + 1) table
  else
    some table
termination_by tablelen - i

/-- The value `x` of the second loop of `kaiser_and_sinc` at loop index `i`:
`(((float) i) / ((float) RESAMPLER_SAMPLES_PER_ZERO_CROSSING)) * ((float) M_PI)`. -/
def sincArg (pi : α) (i : Nat) : α :=
  ((i : α) / (RESAMPLER_SAMPLES_PER_ZERO_CROSSING : α)) * pi

/-- The second loop of `kaiser_and_sinc`, from loop index `i`:
```
for (i = 1; i < tablelen; i++) {
    const float x = ...;
    table[i] *= sinf(x) / x;
    diffs[i - 1] = table[i] - table[i - 1];
}
``` -/
def sincLoop (sinf : α → α) (pi : α) (tablelen : Nat)
    (i : Nat) (table diffs : List α) : Option (List α × List α) :=
  if i < tablelen then do
    let x := sincArg pi i
    let t ← load table i
    let table ← store table i (t * (sinf x / x))
    let a ← load table i
    let b ← load table ((i : Int) - 1)
    let diffs ← store diffs ((i : Int) - 1) (a - b)
    sincLoop sinf pi tablelen (i + 1) table diffs
  else
    some (table, diffs)
termination_by tablelen - i

/-- The part of `kaiser_and_sinc` up to the end of its first loop; the result
is the table holding the window values only:
```
const int lenm1 = tablelen - 1;
const int lenm1div2 = lenm1 / 2;
const double bessel_beta = bessel(beta);
table[0] = 1.0f;
for (i = 1; i < tablelen; i++) { ... }
``` -/
def kaiserWindow (sqrt : α → α) (fuel : Nat) (table : List α) (tablelen : Nat)
    (beta : α) : Option (List α) := do
  let lenm1 : Int := (tablelen : Int) - 1
  let lenm1div2 : Int := Int.tdiv lenm1 2
  let bessel_beta ← bessel fuel beta
  let table ← store table 0 1
  windowLoop sqrt fuel tablelen lenm1 lenm1div2 beta bessel_beta 1 table

/-- The function `kaiser_and_sinc(table, diffs, tablelen, beta)`: the first
loop (`kaiserWindow`), the second loop, and `diffs[lenm1] = 0.0f`. The
arguments `table` and `diffs` are the initial contents of the two buffers, the
result is their final contents. -/
def kaiser_and_sinc (sqrt sinf : α → α) (pi : α) (fuel : Nat) (table diffs : List α)
    (tablelen : Nat) (beta : α) : Option (List α × List α) := do
  let lenm1 : Int := (tablelen : Int) - 1
  let table ← kaiserWindow sqrt fuel table tablelen beta
  let (table, diffs) ← sincLoop sinf pi tablelen 1 table diffs
  let diffs ← store diffs lenm1 0
  pure (table, diffs)

/-- The constant `(float) M_PI` of the second loop of `kaiser_and_sinc`:
`M_PI` is `3.14159265358979323846` in `math.h`, and the single precision
value nearest to it is `13176795 / 2^22` (bit pattern `0x40490FDB`). -/
def M_PI_float : α := 13176795 / 4194304

/-- The argument of `sqrt` in the first loop of `kaiser_and_sinc` at loop
index `i`: `1.0 - pow(((i - lenm1) / 2.0) / lenm1div2, 2.0)`. -/
def windowArg (lenm1 lenm1div2 : Int) (i : Int) : α :=
  1 - ((((i - lenm1 : Int) : α) / 2) / (lenm1div2 : α)) ^ 2

/-- The function `PrepareResampleFilter`, on the two static arrays
`ResamplerFilter` and `ResamplerFilterDifference`:
```
const double dB = 80.0;
const double beta = 0.1102 * (dB - 8.7);
kaiser_and_sinc(ResamplerFilter, ResamplerFilterDifference, RESAMPLER_FILTER_SIZE, beta);
``` -/
def PrepareResampleFilter (sqrt sinf : α → α) (pi : α) (fuel : Nat)
    (ResamplerFilter ResamplerFilterDifference : List α) : Option (List α × List α) :=
  let dB : α := 80.0
  let beta : α := 0.1102 * (dB - 8.7)
  kaiser_and_sinc sqrt sinf pi fuel ResamplerFilter ResamplerFilterDifference
    RESAMPLER_FILTER_SIZE beta

end Field

/-! ## The table emitter of `main` -/

/-- A piece of the text written by a call of `printf`: characters taken from
the format string or from a `%s` argument, or the conversion `%.<prec>f` of a
value (its rendering belongs to libc and contains no line break). -/
inductive Piece (α : Type) where
  | text (s : String) : Piece α
  | fixed (prec : Nat) (v : α) : Piece α

/-- The loop of the table emitter, from loop index `i`, over a table
declared with `n` entries:
```
for (i = 0; i < RESAMPLER_FILTER_SIZE-1; i++) {
    printf("%s%.9ff", ((i % 5) == 4) ? ",\n    " : ", ", ResamplerFilter[i+1]);
}
``` -/
def emitLoop {α : Type} (table : List α) (n : Nat) (i : Nat) : Option (List (Piece α)) :=
  if i < n - 1 then do
    let v ← load table ((i : Int) + 1)
    let rest ← emitLoop table n (i + 1)
    pure ([Piece.text (if i % 5 = 4 then ",\n    " else ", "), Piece.fixed 9 v,
      Piece.text "f"] ++ rest)
  else
    some []
termination_by n - 1 - i

/-- The table emitter of `main`, for the array called `name`, declared with
`n` entries (`RESAMPLER_FILTER_SIZE` in `main`):
```
printf("static const float ResamplerFilter[RESAMPLER_FILTER_SIZE] = {\n");
printf("    %.9ff", ResamplerFilter[0]);
for (...) { ... }
printf("\n};\n\n");
``` -/
def emitTable {α : Type} (name : String) (table : List α) (n : Nat) :
    Option (List (Piece α)) := do
  let v ← load table 0
  let rest ← emitLoop table n 0
  pure ([Piece.text ("static const float " ++ name ++ "[RESAMPLER_FILTER_SIZE] = \x7b\n"),
    Piece.text "    ", Piece.fixed 9 v, Piece.text "f"] ++ rest ++ [Piece.text "\n\x7d;\n\n"])

/-- The number of line breaks in a text. -/
def lineBreaks (s : String) : Nat :=
  s.toList.count (Char.ofNat 10)

/-- The number of conversions on each line of a text given by its pieces,
`cur` being the number of conversions already on the first line. -/
def lineCounts {α : Type} (cur : Nat) : List (Piece α) → List Nat
  | [] => [cur]
  | Piece.fixed _ _ :: ps => lineCounts (cur + 1) ps
  | Piece.text s :: ps =>
    if lineBreaks s = 0 then lineCounts cur ps
    else cur :: (List.replicate (lineBreaks s - 1) 0 ++ lineCounts 0 ps)

/-- The rows of a text: the numbers of conversions on the lines that hold
one at least. -/
def rowSizes {α : Type} (ps : List (Piece α)) : List Nat :=
  (lineCounts 0 ps).filter (fun k => k ≠ 0)

/-! ## Buffer accesses -/

theorem store_eq_some {α : Type} {a : List α} {idx : Int} {v : α} {b : List α}
    (h : store a idx v = some b) :
    0 ≤ idx ∧ idx.toNat < a.length ∧ b = a.set idx.toNat v := by
  unfold store at h
  split at h
  · rename_i hc
    exact ⟨hc.1, hc.2, (Option.some.inj h).symm⟩
  · cases h

theorem load_eq_some {α : Type} {a : List α} {idx : Int} {v : α}
    (h : load a idx = some v) : 0 ≤ idx ∧ a[idx.toNat]? = some v := by
  unfold load at h
  split at h
  · exact ⟨‹_›, h⟩
  · cases h

/-! ## The two loops of `kaiser_and_sinc` -/

section Loops

variable {α : Type} [LinearOrderedField α]

/-- What the first loop, entered at loop index `i ≥ 1`, leaves in the table:
index `j` with `1 ≤ j ≤ tablelen - i` holds the value `kaiser` of loop index
`tablelen - j`, every other index is untouched. -/
theorem windowLoop_spec (sqrt : α → α) (fuel tablelen : Nat) (lenm1 lenm1div2 : Int)
    (beta bb : α) (n : Nat) :
    ∀ (i : Nat) (table t : List α), tablelen - i = n → 1 ≤ i →
      windowLoop sqrt fuel tablelen lenm1 lenm1div2 beta bb i table = some t →
      t.length = table.length ∧
      ∀ j : Nat, (1 ≤ j ∧ j + i ≤ tablelen →
            ∃ v, kaiser sqrt fuel lenm1 lenm1div2 beta bb ((tablelen : Int) - (j : Int)) = some v ∧
              t[j]? = some v) ∧
          (¬ (1 ≤ j ∧ j + i ≤ tablelen) → t[j]? = table[j]?) := by
  induction n with
  | zero =>
    intro i table t hn hi h
    rw [windowLoop, if_neg (by omega)] at h
    cases h
    refine ⟨rfl, fun j => ⟨fun hj => by omega, fun _ => rfl⟩⟩
  | succ n ih =>
    intro i table t hn hi h
    rw [windowLoop, if_pos (by omega)] at h
    simp only [Option.bind_eq_bind, Option.bind_eq_some] at h
    obtain ⟨k, hk, table1, hst, hrec⟩ := h
    obtain ⟨h0, hlt, rfl⟩ := store_eq_some hst
    obtain ⟨hlen, hj⟩ := ih (i + 1) _ t (by omega) (by omega) hrec
    have hidx : ((tablelen : Int) - (i : Int)).toNat = tablelen - i := by omega
    rw [hidx] at hlen hj hlt
    refine ⟨by simpa using hlen, fun j => ⟨fun hc => ?_, fun hc => ?_⟩⟩
    · by_cases hji : j + (i + 1) ≤ tablelen
      · exact (hj j).1 ⟨hc.1, hji⟩
      · have hje : j = tablelen - i := by omega
        refine ⟨k, ?_, ?_⟩
        · have : ((tablelen : Int) - (j : Int)) = (i : Int) := by omega
          rw [this]; exact hk
        · rw [(hj j).2 (by omega), hje, List.getElem?_set_self hlt]
    · rw [(hj j).2 (by omega), List.getElem?_set_ne (by omega)]

/-- What the second loop, entered at loop index `i ≥ 1`, leaves in the two
buffers: table index `j` with `i ≤ j < tablelen` is multiplied by
`sinf(x) / x`, every other table index is untouched; `diffs[j]` with
`i ≤ j + 1 < tablelen` is the difference of the final `table[j + 1]` and
`table[j]`, every other index of `diffs` is untouched. -/
theorem sincLoop_spec (sinf : α → α) (pi : α) (tablelen : Nat) (n : Nat) :
    ∀ (i : Nat) (table diffs t d : List α), tablelen - i = n → 1 ≤ i →
      sincLoop sinf pi tablelen i table diffs = some (t, d) →
      t.length = table.length ∧ d.length = diffs.length ∧
      (∀ j : Nat, (i ≤ j ∧ j < tablelen →
            ∃ w, table[j]? = some w ∧
              t[j]? = some (w * (sinf (sincArg pi j) / sincArg pi j))) ∧
          (¬ (i ≤ j ∧ j < tablelen) → t[j]? = table[j]?)) ∧
      (∀ j : Nat, (i ≤ j + 1 ∧ j + 1 < tablelen →
            ∃ a b, t[j]? = some a ∧ t[j + 1]? = some b ∧ d[j]? = some (b - a)) ∧
          (¬ (i ≤ j + 1 ∧ j + 1 < tablelen) → d[j]? = diffs[j]?)) := by
  induction n with
  | zero =>
    intro i table diffs t d hn hi h
    rw [sincLoop, if_neg (by omega)] at h
    cases h
    exact ⟨rfl, rfl, fun j => ⟨fun hj => by omega, fun _ => rfl⟩,
      fun j => ⟨fun hj => by omega, fun _ => rfl⟩⟩
  | succ n ih =>
    intro i table diffs t d hn hi h
    rw [sincLoop, if_pos (by omega)] at h
    simp only [Option.bind_eq_bind, Option.bind_eq_some] at h
    obtain ⟨w, hw, table1, hst, a, ha, b, hb, diffs1, hsd, hrec⟩ := h
    obtain ⟨-, hw⟩ := load_eq_some hw
    obtain ⟨-, hlt, rfl⟩ := store_eq_some hst
    obtain ⟨-, ha⟩ := load_eq_some ha
    obtain ⟨-, hb⟩ := load_eq_some hb
    obtain ⟨-, hdlt, rfl⟩ := store_eq_some hsd
    have hidx : ((i : Int) - 1).toNat = i - 1 := by omega
    rw [hidx] at hb hdlt hrec
    simp only [Int.toNat_ofNat] at hw hlt ha hb hrec
    rw [List.getElem?_set_self hlt] at ha
    rw [List.getElem?_set_ne (by omega)] at hb
    cases ha
    obtain ⟨hlen, hdlen, ht, hd⟩ := ih (i + 1) _ _ t d (by omega) (by omega) hrec
    refine ⟨by simpa using hlen, by simpa using hdlen, fun j => ⟨fun hc => ?_, fun hc => ?_⟩,
      fun j => ⟨fun hc => ?_, fun hc => ?_⟩⟩
    · by_cases hji : i + 1 ≤ j
      · obtain ⟨w', hw', ht'⟩ := (ht j).1 ⟨hji, hc.2⟩
        rw [List.getElem?_set_ne (by omega)] at hw'
        exact ⟨w', hw', ht'⟩
      · have hje : j = i := by omega
        subst hje
        refine ⟨w, hw, ?_⟩
        rw [(ht j).2 (by omega), List.getElem?_set_self hlt]
    · rw [(ht j).2 (by omega), List.getElem?_set_ne (by omega)]
    · by_cases hji : i + 1 ≤ j + 1
      · exact (hd j).1 ⟨hji, hc.2⟩
      · have hje : i = j + 1 := by omega
        subst hje
        refine ⟨b, w * (sinf (sincArg pi (j + 1)) / sincArg pi (j + 1)), ?_, ?_, ?_⟩
        · rw [(ht j).2 (by omega), List.getElem?_set_ne (by omega)]
          simpa using hb
        · rw [(ht (j + 1)).2 (by omega), List.getElem?_set_self hlt]
        · rw [(hd j).2 (by omega)]
          simpa using List.getElem?_set_self hdlt
    · rw [(hd j).2 (by omega), List.getElem?_set_ne (by omega)]

/-- What `kaiserWindow` leaves in the table: index 0 holds 1, index `j` with
`1 ≤ j < tablelen` holds the value `kaiser` of loop index `tablelen - j`. -/
theorem kaiserWindow_spec (sqrt : α → α) (fuel : Nat) (table0 t : List α) (tablelen : Nat)
    (beta : α) (h : kaiserWindow sqrt fuel table0 tablelen beta = some t) :
    t.length = table0.length ∧ t[0]? = some 1 ∧
      ∃ bb, bessel fuel beta = some bb ∧
        ∀ j : Nat, 1 ≤ j → j < tablelen →
          ∃ v, kaiser sqrt fuel ((tablelen : Int) - 1) (Int.tdiv ((tablelen : Int) - 1) 2)
              beta bb ((tablelen : Int) - (j : Int)) = some v ∧ t[j]? = some v := by
  unfold kaiserWindow at h
  simp only [Option.bind_eq_bind, Option.bind_eq_some] at h
  obtain ⟨bb, hbb, table1, hst, hloop⟩ := h
  obtain ⟨-, hlt, rfl⟩ := store_eq_some hst
  obtain ⟨hlen, hj⟩ := windowLoop_spec sqrt fuel tablelen _ _ beta bb _ 1 _ t rfl le_rfl hloop
  refine ⟨by simpa using hlen, ?_, bb, hbb, fun j h1 h2 => (hj j).1 ⟨h1, by omega⟩⟩
  rw [(hj 0).2 (by omega)]
  simpa using List.getElem?_set_self hlt

/-- The buffers at the three stages of a run of `kaiser_and_sinc` that
returns: after the first loop, after the second loop, at the end. -/
theorem kaiser_and_sinc_stages (sqrt sinf : α → α) (pi : α) (fuel : Nat)
    (table0 diffs0 table diffs : List α) (tablelen : Nat) (beta : α)
    (h : kaiser_and_sinc sqrt sinf pi fuel table0 diffs0 tablelen beta = some (table, diffs)) :
    ∃ window d, kaiserWindow sqrt fuel table0 tablelen beta = some window ∧
      sincLoop sinf pi tablelen 1 window diffs0 = some (table, d) ∧
      1 ≤ tablelen ∧ tablelen - 1 < d.length ∧ diffs = d.set (tablelen - 1) 0 := by
  unfold kaiser_and_sinc at h
  simp only [Option.bind_eq_bind, Option.bind_eq_some, Option.pure_def, Option.some.injEq,
    Prod.mk.injEq, Prod.exists] at h
  obtain ⟨window, hw, t, d, hs, d2, hst, rfl, rfl⟩ := h
  obtain ⟨h0, hlt, rfl⟩ := store_eq_some hst
  have hidx : ((tablelen : Int) - 1).toNat = tablelen - 1 := by omega
  rw [hidx] at hlt
  exact ⟨window, d, hw, hs, by omega, hlt, by rw [hidx]⟩

/-- The first loop returns when each evaluation of `kaiser` returns and the
table has at least `tablelen` entries. -/
theorem windowLoop_returns (sqrt : α → α) (fuel tablelen : Nat) (lenm1 lenm1div2 : Int)
    (beta bb : α)
    (hk : ∀ i : Nat, 1 ≤ i → i < tablelen →
      ∃ v, kaiser sqrt fuel lenm1 lenm1div2 beta bb i = some v) (n : Nat) :
    ∀ (i : Nat) (table : List α), tablelen - i = n → 1 ≤ i → tablelen ≤ table.length →
      ∃ t, windowLoop sqrt fuel tablelen lenm1 lenm1div2 beta bb i table = some t := by
  induction n with
  | zero =>
    intro i table hn hi hlen
    rw [windowLoop, if_neg (by omega)]
    exact ⟨table, rfl⟩
  | succ n ih =>
    intro i table hn hi hlen
    rw [windowLoop, if_pos (by omega)]
    obtain ⟨v, hv⟩ := hk i hi (by omega)
    have hidx : ((tablelen : Int) - (i : Int)).toNat = tablelen - i := by omega
    have hst : store table ((tablelen : Int) - (i : Int)) v = some (table.set (tablelen - i) v) := by
      unfold store
      rw [if_pos ⟨by omega, by omega⟩, hidx]
    obtain ⟨t, ht⟩ := ih (i + 1) (table.set (tablelen - i) v) (by omega) (by omega)
      (by simpa using hlen)
    exact ⟨t, by simp [hv, hst, ht]⟩

/-- The second loop returns when the two buffers have at least `tablelen`
entries. -/
theorem sincLoop_returns (sinf : α → α) (pi : α) (tablelen : Nat) (n : Nat) :
    ∀ (i : Nat) (table diffs : List α), tablelen - i = n → 1 ≤ i →
      tablelen ≤ table.length → tablelen ≤ diffs.length →
      ∃ t d, sincLoop sinf pi tablelen i table diffs = some (t, d) := by
  induction n with
  | zero =>
    intro i table diffs hn hi hlen hdlen
    rw [sincLoop, if_neg (by omega)]
    exact ⟨table, diffs, rfl⟩
  | succ n ih =>
    intro i table diffs hn hi hlen hdlen
    rw [sincLoop, if_pos (by omega)]
    have hidx : ((i : Int) - 1).toNat = i - 1 := by omega
    have hi1 : i - 1 < table.length := by omega
    have hi2 : i < table.length := by omega
    obtain ⟨t, d, htd⟩ := ih (i + 1)
      (table.set i (table[i] * (sinf (sincArg pi i) / sincArg pi i)))
      (diffs.set (i - 1) (table[i] * (sinf (sincArg pi i) / sincArg pi i) - table[i - 1]))
      (by omega) (by omega) (by simpa using hlen) (by simpa using hdlen)
    refine ⟨t, d, ?_⟩
    have hne : ¬ i = i - 1 := by omega
    have h0 : (0 : Int) ≤ (i : Int) - 1 := by omega
    have hd1 : i - 1 < diffs.length := by omega
    simp [load, store, hidx, hi1, hi2, hne, h0, hd1, htd, List.getElem?_eq_getElem,
      List.getElem_set_ne]

/-- The first part of `kaiser_and_sinc` returns when `bessel(beta)` and each
evaluation of `kaiser` return, `tablelen ≥ 1`, and the table has at least
`tablelen` entries. -/
theorem kaiserWindow_returns_of (sqrt : α → α) (fuel : Nat)
    (table0 : List α) (tablelen : Nat) (beta bb : α)
    (hbb : bessel fuel beta = some bb)
    (hk : ∀ i : Nat, 1 ≤ i → i < tablelen →
      ∃ v, kaiser sqrt fuel ((tablelen : Int) - 1) (Int.tdiv ((tablelen : Int) - 1) 2)
        beta bb i = some v)
    (h1 : 1 ≤ tablelen) (hlen : tablelen ≤ table0.length) :
    ∃ window, kaiserWindow sqrt fuel table0 tablelen beta = some window := by
  have hst : store table0 0 (1 : α) = some (table0.set 0 1) := by
    unfold store
    rw [if_pos ⟨le_rfl, by simp; omega⟩]
    rfl
  obtain ⟨w, hw⟩ := windowLoop_returns sqrt fuel tablelen _ _ beta bb hk _ 1 (table0.set 0 1)
    rfl le_rfl (by simpa using hlen)
  exact ⟨w, by simp [kaiserWindow, hbb, hst, hw]⟩

/-- The function `kaiser_and_sinc` returns when `bessel(beta)` and each
evaluation of `kaiser` return, `tablelen ≥ 1`, and the two buffers have at
least `tablelen` entries. -/
theorem kaiser_and_sinc_returns_of (sqrt sinf : α → α) (pi : α) (fuel : Nat)
    (table0 diffs0 : List α) (tablelen : Nat) (beta bb : α)
    (hbb : bessel fuel beta = some bb)
    (hk : ∀ i : Nat, 1 ≤ i → i < tablelen →
      ∃ v, kaiser sqrt fuel ((tablelen : Int) - 1) (Int.tdiv ((tablelen : Int) - 1) 2)
        beta bb i = some v)
    (h1 : 1 ≤ tablelen) (hlen : tablelen ≤ table0.length) (hdlen : tablelen ≤ diffs0.length) :
    ∃ table diffs,
      kaiser_and_sinc sqrt sinf pi fuel table0 diffs0 tablelen beta = some (table, diffs) := by
  obtain ⟨w, hwin⟩ := kaiserWindow_returns_of sqrt fuel table0 tablelen beta bb hbb hk h1 hlen
  have hwlen : w.length = table0.length :=
    (kaiserWindow_spec sqrt fuel table0 w tablelen beta hwin).1
  obtain ⟨t, d, htd⟩ := sincLoop_returns sinf pi tablelen _ 1 w diffs0 rfl le_rfl
    (by omega) hdlen
  have hdl : d.length = diffs0.length :=
    (sincLoop_spec sinf pi tablelen _ 1 w diffs0 t d rfl le_rfl htd).2.1
  have hidx : ((tablelen : Int) - 1).toNat = tablelen - 1 := by omega
  refine ⟨t, d.set (tablelen - 1) 0, ?_⟩
  have h0 : (0 : Int) ≤ (tablelen : Int) - 1 := by omega
  have h2 : tablelen - 1 < d.length := by omega
  simp [kaiser_and_sinc, hwin, htd, store, hidx, h0, h2]

end Loops

/-! ## The claims on the structure of the two tables -/

section Tables

variable {α : Type} [LinearOrderedField α]

/-- C1: whenever `kaiser_and_sinc` returns, with `tablelen ≥ 2`, for every
`i` in `[0, tablelen - 2]` the entry `diffs[i]` of the final difference table
is `table[i + 1] - table[i]` computed on the final contents of `table`. -/
theorem kaiser_and_sinc_diffs_eq (sqrt sinf : α → α) (pi : α) (fuel : Nat)
    (table0 diffs0 table diffs : List α) (tablelen : Nat) (beta : α)
    (hlen : 2 ≤ tablelen)
    (h : kaiser_and_sinc sqrt sinf pi fuel table0 diffs0 tablelen beta = some (table, diffs))
    (i : Nat) (hi : i ≤ tablelen - 2) :
    ∃ a b, table[i]? = some a ∧ table[i + 1]? = some b ∧ diffs[i]? = some (b - a) := by
  obtain ⟨window, d, -, hs, -, -, rfl⟩ :=
    kaiser_and_sinc_stages sqrt sinf pi fuel table0 diffs0 table diffs tablelen beta h
  obtain ⟨-, -, -, hd⟩ := sincLoop_spec sinf pi tablelen _ 1 window diffs0 table d rfl le_rfl hs
  obtain ⟨a, b, ha, hb, hab⟩ := (hd i).1 ⟨by omega, by omega⟩
  refine ⟨a, b, ha, hb, ?_⟩
  rw [List.getElem?_set_ne (by omega)]
  exact hab

/-- C2: whenever `kaiser_and_sinc` returns, with `tablelen ≥ 1`, the entry
`table[0]` of the final table is exactly 1. -/
theorem kaiser_and_sinc_table_zero (sqrt sinf : α → α) (pi : α) (fuel : Nat)
    (table0 diffs0 table diffs : List α) (tablelen : Nat) (beta : α)
    (_hlen : 1 ≤ tablelen)
    (h : kaiser_and_sinc sqrt sinf pi fuel table0 diffs0 tablelen beta = some (table, diffs)) :
    table[0]? = some 1 := by
  obtain ⟨window, d, hw, hs, -, -, -⟩ :=
    kaiser_and_sinc_stages sqrt sinf pi fuel table0 diffs0 table diffs tablelen beta h
  obtain ⟨-, -, ht, -⟩ := sincLoop_spec sinf pi tablelen _ 1 window diffs0 table d rfl le_rfl hs
  rw [(ht 0).2 (by omega)]
  exact (kaiserWindow_spec sqrt fuel table0 window tablelen beta hw).2.1

/-- C3: whenever `kaiser_and_sinc` returns, with `tablelen ≥ 1`, the last
entry `diffs[tablelen - 1]` of the final difference table is exactly 0. -/
theorem kaiser_and_sinc_diffs_last (sqrt sinf : α → α) (pi : α) (fuel : Nat)
    (table0 diffs0 table diffs : List α) (tablelen : Nat) (beta : α)
    (_hlen : 1 ≤ tablelen)
    (h : kaiser_and_sinc sqrt sinf pi fuel table0 diffs0 tablelen beta = some (table, diffs)) :
    diffs[tablelen - 1]? = some 0 := by
  obtain ⟨window, d, -, -, -, hlt, rfl⟩ :=
    kaiser_and_sinc_stages sqrt sinf pi fuel table0 diffs0 table diffs tablelen beta h
  exact List.getElem?_set_self hlt

end Tables

/-- A run in real arithmetic: `tablelen = 3`, `beta = 0`, zeroed buffers. -/
theorem kaiser_and_sinc_run_three :
    kaiser_and_sinc Real.sqrt Real.sin Real.pi 1 [0, 0, 0] [0, 0, 0] 3 (0 : ℝ) =
      some ([1, Real.sin (sincArg Real.pi 1) / sincArg Real.pi 1,
              Real.sin (sincArg Real.pi 2) / sincArg Real.pi 2],
            [Real.sin (sincArg Real.pi 1) / sincArg Real.pi 1 - 1,
              Real.sin (sincArg Real.pi 2) / sincArg Real.pi 2 -
                Real.sin (sincArg Real.pi 1) / sincArg Real.pi 1, 0]) := by
  have hthr : (0 : ℝ) < besselThreshold := by
    unfold besselThreshold; positivity
  simp [kaiser_and_sinc, kaiserWindow, windowLoop, sincLoop, kaiser, bessel, besselLoop,
    store, load, hthr]

/-- The instance of C1 at the run `kaiser_and_sinc_run_three`, `i = 1`. -/
theorem kaiser_and_sinc_diffs_eq_witness :
    ∃ a b : ℝ,
      [1, Real.sin (sincArg Real.pi 1) / sincArg Real.pi 1,
          Real.sin (sincArg Real.pi 2) / sincArg Real.pi 2][1]? = some a ∧
      [1, Real.sin (sincArg Real.pi 1) / sincArg Real.pi 1,
          Real.sin (sincArg Real.pi 2) / sincArg Real.pi 2][1 + 1]? = some b ∧
      [Real.sin (sincArg Real.pi 1) / sincArg Real.pi 1 - 1,
          Real.sin (sincArg Real.pi 2) / sincArg Real.pi 2 -
            Real.sin (sincArg Real.pi 1) / sincArg Real.pi 1, 0][1]? = some (b - a) :=
  kaiser_and_sinc_diffs_eq Real.sqrt Real.sin Real.pi 1 [0, 0, 0] [0, 0, 0] _ _ 3 0
    (by decide) kaiser_and_sinc_run_three 1 (by decide)

/-- The instance of C2 at the run `kaiser_and_sinc_run_three`. -/
theorem kaiser_and_sinc_table_zero_witness :
    [1, Real.sin (sincArg Real.pi 1) / sincArg Real.pi 1,
        Real.sin (sincArg Real.pi 2) / sincArg Real.pi 2][0]? = some (1 : ℝ) :=
  kaiser_and_sinc_table_zero Real.sqrt Real.sin Real.pi 1 [0, 0, 0] [0, 0, 0] _ _ 3 0
    (by decide) kaiser_and_sinc_run_three

/-- The instance of C3 at the run `kaiser_and_sinc_run_three`. -/
theorem kaiser_and_sinc_diffs_last_witness :
    [Real.sin (sincArg Real.pi 1) / sincArg Real.pi 1 - 1,
        Real.sin (sincArg Real.pi 2) / sincArg Real.pi 2 -
          Real.sin (sincArg Real.pi 1) / sincArg Real.pi 1, 0][3 - 1]? = some (0 : ℝ) :=
  kaiser_and_sinc_diffs_last Real.sqrt Real.sin Real.pi 1 [0, 0, 0] [0, 0, 0] _ _ 3 0
    (by decide) kaiser_and_sinc_run_three

/-! ## The claims on the derived sizes -/

/-- C4: for all `bitsPerSample` and `zeroCrossings`, the samples per zero
crossing are `2 ^ (bitsPerSample / 2 + 1)`, a power of two, and the filter
size is odd. -/
theorem filterSize_odd (bitsPerSample zeroCrossings : Nat) :
    samplesPerZeroCrossing bitsPerSample = 2 ^ (bitsPerSample / 2 + 1) ∧
      (∃ k, samplesPerZeroCrossing bitsPerSample = 2 ^ k) ∧
      filterSize bitsPerSample zeroCrossings % 2 = 1 := by
  have h : samplesPerZeroCrossing bitsPerSample = 2 ^ (bitsPerSample / 2 + 1) := by
    simp [samplesPerZeroCrossing, Nat.shiftLeft_eq]
  refine ⟨h, ⟨_, h⟩, ?_⟩
  unfold filterSize
  rw [h, pow_succ, Nat.mul_assoc, Nat.mul_comm _ (2 * zeroCrossings), Nat.mul_assoc]
  omega

/-- C5: with 5 zero crossings and 16 bits per sample,
`RESAMPLER_SAMPLES_PER_ZERO_CROSSING` is 512 and `RESAMPLER_FILTER_SIZE` is
2561. -/
theorem reference_sizes :
    RESAMPLER_ZERO_CROSSINGS = 5 ∧ RESAMPLER_BITS_PER_SAMPLE = 16 ∧
      RESAMPLER_SAMPLES_PER_ZERO_CROSSING = 512 ∧ RESAMPLER_FILTER_SIZE = 2561 := by
  decide

/-! ## The loop of `bessel` -/

section Bessel

variable {α : Type} [LinearOrderedField α]

theorem besselThreshold_pos : (0 : α) < besselThreshold := by
  unfold besselThreshold; positivity

theorem besselSeries_succ (xdiv2 : α) (n : Nat) :
    besselSeries xdiv2 (n + 1) = besselSeries xdiv2 n + besselTerm xdiv2 n := by
  simp [besselSeries, List.range_succ]

theorem besselSeries_one (xdiv2 : α) : besselSeries xdiv2 1 = 1 := by
  simp [besselSeries, besselTerm, List.range_succ]

theorem besselTerm_nonneg (xdiv2 : α) (i : Nat) : 0 ≤ besselTerm xdiv2 i := by
  unfold besselTerm
  rw [Nat.mul_comm, pow_mul]
  positivity

theorem besselSeries_le_of_le (xdiv2 : α) {m n : Nat} (h : m ≤ n) :
    besselSeries xdiv2 m ≤ besselSeries xdiv2 n := by
  induction n, h using Nat.le_induction with
  | base => exact le_rfl
  | succ n _ ih =>
    rw [besselSeries_succ]
    exact ih.trans (le_add_of_nonneg_right (besselTerm_nonneg xdiv2 n))

theorem one_le_besselSeries (xdiv2 : α) {n : Nat} (h : 1 ≤ n) :
    1 ≤ besselSeries xdiv2 n := by
  rw [← besselSeries_one xdiv2]
  exact besselSeries_le_of_le xdiv2 h

/-- The loop of `bessel`, entered at loop index `i` with `f = i!` and `i0` the
partial sum of the terms below `i`, returns the partial sum of the terms below
`m`, where `m ≥ i` is the first index whose term is below the threshold,
provided the fuel allows `m - i + 1` loop tests. -/
theorem besselLoop_eq_series (xdiv2 : α) (m : Nat) (hm : besselTerm xdiv2 m < besselThreshold) :
    ∀ (fuel i : Nat), i ≤ m → m - i < fuel →
      (∀ k, i ≤ k → k < m → ¬ besselTerm xdiv2 k < besselThreshold) →
      besselLoop xdiv2 fuel i ((i.factorial : Nat) : α) (besselSeries xdiv2 i) =
        some (besselSeries xdiv2 m) := by
  intro fuel
  induction fuel with
  | zero => intro i _ h; omega
  | succ fuel ih =>
    intro i him hfuel hmin
    unfold besselLoop
    simp only
    change (if besselTerm xdiv2 i < besselThreshold then _ else
      besselLoop xdiv2 fuel (i + 1) _ (_ + besselTerm xdiv2 i)) = _
    rcases Nat.eq_or_lt_of_le him with rfl | hlt
    · rw [if_pos hm]
    · rw [if_neg (hmin i le_rfl hlt)]
      have h := ih (i + 1) hlt (by omega) (fun k hk hkm => hmin k (by omega) hkm)
      rw [besselSeries_succ, Nat.factorial_succ, Nat.mul_comm, Nat.cast_mul] at h
      exact h

/-- The function `bessel` returns the partial sum of the terms below `m`,
where `m ≥ 1` is the first index whose term is below the threshold, provided
the fuel allows `m` loop tests. -/
theorem bessel_eq_series (x : α) (m fuel : Nat) (hm1 : 1 ≤ m)
    (hm : besselTerm (x / 2) m < besselThreshold)
    (hmin : ∀ k, 1 ≤ k → k < m → ¬ besselTerm (x / 2) k < besselThreshold)
    (hfuel : m ≤ fuel) :
    bessel fuel x = some (besselSeries (x / 2) m) := by
  have h := besselLoop_eq_series (x / 2) m hm fuel 1 hm1 (by omega) hmin
  rw [besselSeries_one] at h
  simpa [bessel] using h

/-- Conversely, when the loop of `bessel`, entered at loop index `i` with
`f = i!` and `i0` the partial sum of the terms below `i`, returns, it has
found a first index `m ≥ i` whose term is below the threshold, within the
fuel, and it returns the partial sum of the terms below `m`. -/
theorem besselLoop_eq_some (xdiv2 r : α) :
    ∀ (fuel i : Nat),
      besselLoop xdiv2 fuel i ((i.factorial : Nat) : α) (besselSeries xdiv2 i) = some r →
      ∃ m, i ≤ m ∧ m - i < fuel ∧ besselTerm xdiv2 m < besselThreshold ∧
        (∀ k, i ≤ k → k < m → ¬ besselTerm xdiv2 k < besselThreshold) ∧
        r = besselSeries xdiv2 m := by
  intro fuel
  induction fuel with
  | zero => intro i h; simp [besselLoop] at h
  | succ fuel ih =>
    intro i h
    unfold besselLoop at h
    simp only at h
    change (if besselTerm xdiv2 i < besselThreshold then _ else
      besselLoop xdiv2 fuel (i + 1) _ (_ + besselTerm xdiv2 i)) = _ at h
    by_cases hi : besselTerm xdiv2 i < besselThreshold
    · rw [if_pos hi] at h
      exact ⟨i, le_rfl, by omega, hi, fun k h1 h2 => by omega, (Option.some.inj h).symm⟩
    · rw [if_neg hi, ← besselSeries_succ, ← Nat.cast_mul, Nat.mul_comm,
        ← Nat.factorial_succ] at h
      obtain ⟨m, him, hfuel, hm, hmin, hr⟩ := ih (i + 1) h
      refine ⟨m, by omega, by omega, hm, fun k h1 h2 => ?_, hr⟩
      rcases Nat.eq_or_lt_of_le h1 with rfl | h3
      · exact hi
      · exact hmin k h3 h2

/-- When `bessel` returns, the value is the partial sum of the terms below
the first index `m ≥ 1` whose term is below the threshold, and `m` loop tests
were within the fuel. -/
theorem bessel_eq_some {x r : α} {fuel : Nat} (h : bessel fuel x = some r) :
    ∃ m, 1 ≤ m ∧ m ≤ fuel ∧ besselTerm (x / 2) m < besselThreshold ∧
      (∀ k, 1 ≤ k → k < m → ¬ besselTerm (x / 2) k < besselThreshold) ∧
      r = besselSeries (x / 2) m := by
  have h1 : besselLoop (x / 2) fuel 1 ((Nat.factorial 1 : Nat) : α) (besselSeries (x / 2) 1)
      = some r := by
    rw [besselSeries_one]
    simpa [bessel] using h
  obtain ⟨m, hm1, hfuel, hm, hmin, hr⟩ := besselLoop_eq_some (x / 2) r fuel 1 h1
  exact ⟨m, hm1, by omega, hm, hmin, hr⟩

/-- The terms of the series are non-decreasing in the absolute value of the
argument. -/
theorem besselTerm_mono {a b : α} (hab : |a| ≤ |b|) (i : Nat) :
    besselTerm (a / 2) i ≤ besselTerm (b / 2) i := by
  unfold besselTerm
  apply div_le_div_of_nonneg_right _ (by positivity)
  rw [Nat.mul_comm, pow_mul, pow_mul, ← sq_abs (a / 2), ← sq_abs (b / 2)]
  apply pow_le_pow_left₀ (by positivity)
  apply pow_le_pow_left₀ (by positivity)
  rw [abs_div, abs_div]
  exact div_le_div_of_nonneg_right hab (by positivity)

theorem besselSeries_mono {a b : α} (hab : |a| ≤ |b|) (n : Nat) :
    besselSeries (a / 2) n ≤ besselSeries (b / 2) n := by
  induction n with
  | zero => simp [besselSeries]
  | succ n ih =>
    rw [besselSeries_succ, besselSeries_succ]
    exact add_le_add ih (besselTerm_mono hab n)

/-- The value `bessel` returns, when it returns, is the partial sum of the
terms below the first index `m ≥ 1` whose term is below the threshold. -/
theorem bessel_value_unique {x r : α} {fuel m : Nat} (hm1 : 1 ≤ m)
    (hm : besselTerm (x / 2) m < besselThreshold)
    (hmin : ∀ k, 1 ≤ k → k < m → ¬ besselTerm (x / 2) k < besselThreshold)
    (h : bessel fuel x = some r) : r = besselSeries (x / 2) m := by
  obtain ⟨k, hk1, -, hk, hkmin, rfl⟩ := bessel_eq_some h
  rcases Nat.lt_trichotomy k m with hlt | rfl | hlt
  · exact absurd hk (hmin k hk1 hlt)
  · rfl
  · exact absurd hm (hkmin m hm1 hlt)

/-- The first index whose term is below the threshold does not decrease with
the absolute value of the argument, nor does the partial sum up to it. -/
theorem first_small_term_le {a b : α} (hab : |a| ≤ |b|) {m : Nat} (hm1 : 1 ≤ m)
    (hm : besselTerm (b / 2) m < besselThreshold) :
    ∃ na, 1 ≤ na ∧ na ≤ m ∧ besselTerm (a / 2) na < besselThreshold ∧
      (∀ k, 1 ≤ k → k < na → ¬ besselTerm (a / 2) k < besselThreshold) ∧
      besselSeries (a / 2) na ≤ besselSeries (b / 2) m := by
  have hex : ∃ k, 1 ≤ k ∧ besselTerm (a / 2) k < besselThreshold :=
    ⟨m, hm1, lt_of_le_of_lt (besselTerm_mono hab m) hm⟩
  classical
  have hle : Nat.find hex ≤ m :=
    Nat.find_min' hex ⟨hm1, lt_of_le_of_lt (besselTerm_mono hab m) hm⟩
  exact ⟨Nat.find hex, (Nat.find_spec hex).1, hle, (Nat.find_spec hex).2,
    fun k hk1 hkm hk => Nat.find_min hex hkm ⟨hk1, hk⟩,
    (besselSeries_le_of_le _ hle).trans (besselSeries_mono hab m)⟩

/-- When `bessel` returns on `b`, it returns on every `a` with `|a| ≤ |b|`,
with the same fuel, a value that is at least 1 and at most the value returned
on `b`. -/
theorem bessel_le_of_abs_le {a b rb : α} {fuel : Nat} (hab : |a| ≤ |b|)
    (hb : bessel fuel b = some rb) :
    ∃ ra, bessel fuel a = some ra ∧ 1 ≤ ra ∧ ra ≤ rb := by
  obtain ⟨m, hm1, hfuel, hm, -, rfl⟩ := bessel_eq_some hb
  obtain ⟨na, hna1, hle, hna, hmin, hs⟩ := first_small_term_le hab hm1 hm
  exact ⟨_, bessel_eq_series a na fuel hna1 hna hmin (hle.trans hfuel),
    one_le_besselSeries _ hna1, hs⟩

theorem besselSeries_strict_mono {a b : α} (hab : |a| < |b|) {n : Nat} (hn : 2 ≤ n) :
    besselSeries (a / 2) n < besselSeries (b / 2) n := by
  induction n, hn using Nat.le_induction with
  | base =>
    rw [besselSeries_succ (a / 2) 1, besselSeries_succ (b / 2) 1]
    apply add_lt_add_of_le_of_lt (besselSeries_mono hab.le 1)
    have h : |a / 2| < |b / 2| := by
      rw [abs_div, abs_div]
      exact div_lt_div_of_pos_right hab (by positivity)
    simpa [besselTerm] using sq_lt_sq.2 h
  | succ n _ ih =>
    rw [besselSeries_succ, besselSeries_succ]
    exact add_lt_add_of_lt_of_le ih (besselTerm_mono hab.le n)

/-- When `bessel` returns on `b`, after adding at least the term of index 1,
it returns a strictly smaller value on every `a` with `|a| < |b|`. -/
theorem bessel_lt_of_abs_lt {a b rb : α} {fuel : Nat} (hab : |a| < |b|)
    (hb1 : ¬ besselTerm (b / 2) 1 < besselThreshold) (hb : bessel fuel b = some rb) :
    ∃ ra, bessel fuel a = some ra ∧ 1 ≤ ra ∧ ra < rb := by
  obtain ⟨m, hm1, hfuel, hm, -, rfl⟩ := bessel_eq_some hb
  have hm2 : 2 ≤ m := by
    rcases Nat.eq_or_lt_of_le hm1 with rfl | h
    · exact absurd hm hb1
    · exact h
  obtain ⟨na, hna1, hle, hna, hmin, -⟩ := first_small_term_le hab.le hm1 hm
  exact ⟨_, bessel_eq_series a na fuel hna1 hna hmin (hle.trans hfuel),
    one_le_besselSeries _ hna1,
    lt_of_le_of_lt (besselSeries_le_of_le _ hle) (besselSeries_strict_mono hab hm2)⟩

end Bessel

/-- In real arithmetic the loop of `bessel` reaches its `break`: there is a
first index `m ≥ 1` whose term is below the threshold. -/
theorem exists_first_small_term (x : ℝ) :
    ∃ m : Nat, 1 ≤ m ∧ besselTerm (x / 2) m < besselThreshold ∧
      ∀ k, 1 ≤ k → k < m → ¬ besselTerm (x / 2) k < besselThreshold := by
  have hex : ∃ m : Nat, 1 ≤ m ∧ besselTerm (x / 2) m < besselThreshold := by
    have ht := FloorSemiring.tendsto_pow_div_factorial_atTop ((x / 2) ^ 2)
    have hev := (ht.eventually (gt_mem_nhds (besselThreshold_pos : (0 : ℝ) < besselThreshold))).and
      (Filter.eventually_ge_atTop 1)
    obtain ⟨m, hm, hm1⟩ := hev.exists
    refine ⟨m, hm1, lt_of_le_of_lt ?_ hm⟩
    unfold besselTerm
    rw [Nat.mul_comm, pow_mul]
    apply div_le_div_of_nonneg_left (by positivity) (by positivity)
    have h1 : (1 : ℝ) ≤ (m.factorial : ℝ) := by exact_mod_cast m.factorial_pos
    nlinarith
  classical
  refine ⟨Nat.find hex, (Nat.find_spec hex).1, (Nat.find_spec hex).2, fun k hk1 hkm hk => ?_⟩
  exact Nat.find_min hex hkm ⟨hk1, hk⟩

/-- In real arithmetic `bessel` returns, for every argument and every fuel
from some bound on, a value that does not depend on the fuel. -/
theorem bessel_returns (x : ℝ) :
    ∃ m : Nat, 1 ≤ m ∧ ∀ fuel, m ≤ fuel → bessel fuel x = some (besselSeries (x / 2) m) := by
  obtain ⟨m, hm1, hm, hmin⟩ := exists_first_small_term x
  exact ⟨m, hm1, fun fuel hfuel => bessel_eq_series x m fuel hm1 hm hmin hfuel⟩

/-! ## The claims on `bessel` -/

/-- C7: `bessel(0)` returns exactly 1: the first term computed is 0, below the
threshold, so the loop exits on its first test (any positive fuel). -/
theorem bessel_zero {α : Type} [LinearOrderedField α] (fuel : Nat) :
    bessel (fuel + 1) (0 : α) = some 1 := by
  have hthr : (0 : α) < besselThreshold := by
    unfold besselThreshold; positivity
  simp [bessel, besselLoop, hthr]

/-- C8: in real arithmetic `bessel` is monotonically increasing on the
non-negative arguments. For `0 ≤ a ≤ b` there are loop indices `na ≤ nb` such
that `bessel` returns, from the fuel `nb` on, the partial sum of the terms
below `na` on `a` and below `nb` on `b`, and never returns any other value;
the value on `a` is at most the value on `b`; and each term on `a` is at most
the term on `b`. -/
theorem bessel_monotone (a b : ℝ) (ha : 0 ≤ a) (hab : a ≤ b) :
    ∃ na nb : Nat, na ≤ nb ∧
      (∀ fuel, nb ≤ fuel → bessel fuel a = some (besselSeries (a / 2) na) ∧
        bessel fuel b = some (besselSeries (b / 2) nb)) ∧
      (∀ fuel r, bessel fuel a = some r → r = besselSeries (a / 2) na) ∧
      (∀ fuel r, bessel fuel b = some r → r = besselSeries (b / 2) nb) ∧
      besselSeries (a / 2) na ≤ besselSeries (b / 2) nb ∧
      ∀ i, besselTerm (a / 2) i ≤ besselTerm (b / 2) i := by
  have habs : |a| ≤ |b| := by
    rw [abs_of_nonneg ha, abs_of_nonneg (ha.trans hab)]
    exact hab
  obtain ⟨nb, hnb1, hnb, hbmin⟩ := exists_first_small_term b
  obtain ⟨na, hna1, hle, hna, hamin, hs⟩ := first_small_term_le habs hnb1 hnb
  exact ⟨na, nb, hle,
    fun fuel hfuel => ⟨bessel_eq_series a na fuel hna1 hna hamin (hle.trans hfuel),
      bessel_eq_series b nb fuel hnb1 hnb hbmin hfuel⟩,
    fun _ _ h => bessel_value_unique hna1 hna hamin h,
    fun _ _ h => bessel_value_unique hnb1 hnb hbmin h,
    hs, besselTerm_mono habs⟩

/-- The instance of C8 at `a = 1`, `b = 2`. -/
theorem bessel_monotone_witness :
    ∃ na nb : Nat, na ≤ nb ∧
      (∀ fuel, nb ≤ fuel → bessel fuel (1 : ℝ) = some (besselSeries ((1 : ℝ) / 2) na) ∧
        bessel fuel (2 : ℝ) = some (besselSeries ((2 : ℝ) / 2) nb)) ∧
      (∀ fuel r, bessel fuel (1 : ℝ) = some r → r = besselSeries ((1 : ℝ) / 2) na) ∧
      (∀ fuel r, bessel fuel (2 : ℝ) = some r → r = besselSeries ((2 : ℝ) / 2) nb) ∧
      besselSeries ((1 : ℝ) / 2) na ≤ besselSeries ((2 : ℝ) / 2) nb ∧
      ∀ i, besselTerm ((1 : ℝ) / 2) i ≤ besselTerm ((2 : ℝ) / 2) i :=
  bessel_monotone 1 2 (by norm_num) (by norm_num)

/-! ## The claim on the magnitude of the table entries -/

/-- Each evaluation of `kaiser` returns a value in `[0, 1]` once
`bessel(beta)` returns, for a `sqrt` that maps the arguments up to 1 into
`[-1, 1]`. -/
theorem kaiser_spec {α : Type} [LinearOrderedField α] (sqrt : α → α)
    (hsqrt : ∀ s : α, s ≤ 1 → |sqrt s| ≤ 1) (fuel : Nat) (lenm1 lenm1div2 : Int)
    (beta bb : α) (i : Int) (hbb : bessel fuel beta = some bb) :
    ∃ v, kaiser sqrt fuel lenm1 lenm1div2 beta bb i = some v ∧ 0 ≤ v ∧ v ≤ 1 := by
  have habs : |beta * sqrt (1 - ((((i - lenm1 : Int) : α) / 2) / (lenm1div2 : α)) ^ 2)|
      ≤ |beta| := by
    rw [abs_mul]
    exact mul_le_of_le_one_right (abs_nonneg _)
      (hsqrt _ (sub_le_self _ (sq_nonneg _)))
  obtain ⟨ra, hra, h1, hle⟩ := bessel_le_of_abs_le habs hbb
  have hpos : 0 < bb := lt_of_lt_of_le one_pos (h1.trans hle)
  refine ⟨ra / bb, ?_, div_nonneg (zero_le_one.trans h1) hpos.le, (div_le_one hpos).2 hle⟩
  unfold kaiser
  rw [hra]
  rfl

theorem abs_sqrt_le_one (s : ℝ) (h : s ≤ 1) : |Real.sqrt s| ≤ 1 := by
  rw [abs_of_nonneg (Real.sqrt_nonneg s)]
  exact Real.sqrt_le_one.2 h

theorem abs_sin_div_le_one (x : ℝ) : |Real.sin x / x| ≤ 1 := by
  rw [abs_div]
  exact div_le_one_of_le₀ Real.abs_sin_le_abs (abs_nonneg x)

/-- In real arithmetic `kaiser_and_sinc` returns from some fuel on, for every
`tablelen ≥ 1`, every `beta` and all buffers of at least `tablelen` entries. -/
theorem kaiser_and_sinc_returns (sinf : ℝ → ℝ) (pi : ℝ) (table0 diffs0 : List ℝ)
    (tablelen : Nat) (beta : ℝ) (h1 : 1 ≤ tablelen) (hlen : tablelen ≤ table0.length)
    (hdlen : tablelen ≤ diffs0.length) :
    ∃ N, ∀ fuel, N ≤ fuel → ∃ table diffs,
      kaiser_and_sinc Real.sqrt sinf pi fuel table0 diffs0 tablelen beta
        = some (table, diffs) := by
  obtain ⟨m, -, hm⟩ := bessel_returns beta
  refine ⟨m, fun fuel hfuel => ?_⟩
  refine kaiser_and_sinc_returns_of Real.sqrt sinf pi fuel table0 diffs0 tablelen beta _
    (hm fuel hfuel) (fun i _ _ => ?_) h1 hlen hdlen
  obtain ⟨v, hv, -⟩ := kaiser_spec Real.sqrt abs_sqrt_le_one fuel _ _ beta _ i (hm fuel hfuel)
  exact ⟨v, hv⟩

/-- C9: in real arithmetic, for every odd `tablelen ≥ 3` and every
`beta ≥ 0` (so also for `tablelen = 2561` and `beta = 0.1102 * (80 - 8.7)`),
and buffers of `tablelen` entries, `kaiser_and_sinc` returns from some fuel on,
and every entry `table[i]`, `0 ≤ i ≤ tablelen - 1`, of a table it returns
satisfies `|table[i]| ≤ 1`. -/
theorem kaiser_and_sinc_abs_le_one (table0 diffs0 : List ℝ) (tablelen : Nat) (beta : ℝ)
    (_hodd : tablelen % 2 = 1) (h3 : 3 ≤ tablelen) (_hbeta : 0 ≤ beta)
    (hlen : table0.length = tablelen) (hdlen : diffs0.length = tablelen) :
    (∃ N, ∀ fuel, N ≤ fuel → ∃ table diffs,
      kaiser_and_sinc Real.sqrt Real.sin Real.pi fuel table0 diffs0 tablelen beta
        = some (table, diffs)) ∧
    ∀ fuel table diffs,
      kaiser_and_sinc Real.sqrt Real.sin Real.pi fuel table0 diffs0 tablelen beta
        = some (table, diffs) →
      table.length = tablelen ∧ ∀ i, i ≤ tablelen - 1 → ∃ v, table[i]? = some v ∧ |v| ≤ 1 := by
  refine ⟨kaiser_and_sinc_returns Real.sin Real.pi table0 diffs0 tablelen beta (by omega)
    hlen.ge hdlen.ge, fun fuel table diffs h => ?_⟩
  obtain ⟨window, d, hw, hs, -, -, -⟩ :=
    kaiser_and_sinc_stages Real.sqrt Real.sin Real.pi fuel table0 diffs0 table diffs tablelen
      beta h
  obtain ⟨hwlen, hw0, bb, hbb, hwj⟩ := kaiserWindow_spec Real.sqrt fuel table0 window tablelen beta hw
  obtain ⟨htlen, -, ht, -⟩ :=
    sincLoop_spec Real.sin Real.pi tablelen _ 1 window diffs0 table d rfl le_rfl hs
  refine ⟨by omega, fun i hi => ?_⟩
  rcases Nat.eq_zero_or_pos i with rfl | hpos
  · exact ⟨1, by rw [(ht 0).2 (by omega)]; exact hw0, by simp⟩
  · obtain ⟨w, hwi, hti⟩ := (ht i).1 ⟨hpos, by omega⟩
    obtain ⟨v, hv, hvi⟩ := hwj i hpos (by omega)
    obtain ⟨v2, hv2, h0, h1⟩ := kaiser_spec Real.sqrt abs_sqrt_le_one fuel
      ((tablelen : Int) - 1) (Int.tdiv ((tablelen : Int) - 1) 2) beta bb
      ((tablelen : Int) - (i : Int)) hbb
    rw [hv] at hv2
    cases hv2
    rw [hvi] at hwi
    cases hwi
    refine ⟨_, hti, ?_⟩
    rw [abs_mul, abs_of_nonneg h0]
    exact mul_le_one₀ h1 (abs_nonneg _) (abs_sin_div_le_one _)

/-- The instance of C9 at the reference parameters: `tablelen` is
`RESAMPLER_FILTER_SIZE`, `beta` is `0.1102 * (80 - 8.7)`, zeroed buffers. -/
theorem kaiser_and_sinc_abs_le_one_witness :
    (∃ N, ∀ fuel, N ≤ fuel → ∃ table diffs,
      kaiser_and_sinc Real.sqrt Real.sin Real.pi fuel
        (List.replicate RESAMPLER_FILTER_SIZE 0) (List.replicate RESAMPLER_FILTER_SIZE 0)
        RESAMPLER_FILTER_SIZE (0.1102 * (80 - 8.7)) = some (table, diffs)) ∧
    ∀ fuel table diffs,
      kaiser_and_sinc Real.sqrt Real.sin Real.pi fuel
        (List.replicate RESAMPLER_FILTER_SIZE 0) (List.replicate RESAMPLER_FILTER_SIZE 0)
        RESAMPLER_FILTER_SIZE (0.1102 * (80 - 8.7)) = some (table, diffs) →
      table.length = RESAMPLER_FILTER_SIZE ∧
        ∀ i, i ≤ RESAMPLER_FILTER_SIZE - 1 → ∃ v, table[i]? = some v ∧ |v| ≤ 1 :=
  kaiser_and_sinc_abs_le_one (List.replicate RESAMPLER_FILTER_SIZE 0)
    (List.replicate RESAMPLER_FILTER_SIZE 0) RESAMPLER_FILTER_SIZE (0.1102 * (80 - 8.7))
    (by decide) (by decide) (by norm_num) (List.length_replicate _ _)
    (List.length_replicate _ _)

/-! ## The claim on the symmetry of the window -/

/-- C10 fails for `tablelen = 5`, `beta = 2` (real arithmetic, fuel 14, zeroed
table): with `lenm1 = 4` and `k = 1`, the window value at index `k = 1` is 1
and the one at index `lenm1 - k = 3` is below 1. -/
theorem kaiserWindow_not_symmetric :
    ∃ window : List ℝ, kaiserWindow Real.sqrt 14 [0, 0, 0, 0, 0] 5 2 = some window ∧
      window[1]? = some 1 ∧ ∃ v, window[4 - 1]? = some v ∧ v < 1 := by
  have hterm : besselTerm ((2 : ℝ) / 2) 14 < besselThreshold := by
    norm_num [besselTerm, besselThreshold, Nat.factorial]
  have hb1 : ¬ besselTerm ((2 : ℝ) / 2) 1 < besselThreshold := by
    norm_num [besselTerm, besselThreshold]
  obtain ⟨nb, hnb1, hnble, hnb, hbmin, -⟩ :=
    first_small_term_le (le_refl |(2 : ℝ)|) (by norm_num) hterm
  have hbb := bessel_eq_series (2 : ℝ) nb 14 hnb1 hnb hbmin hnble
  have hbb1 : 1 ≤ besselSeries ((2 : ℝ) / 2) nb := one_le_besselSeries _ hnb1
  obtain ⟨window, hw⟩ := kaiserWindow_returns_of Real.sqrt 14 [0, 0, 0, 0, 0] 5 2 _ hbb
    (fun i _ _ => (kaiser_spec Real.sqrt abs_sqrt_le_one 14 _ _ 2 _ i hbb).imp
      (fun v h => h.1)) (by norm_num) (by simp)
  obtain ⟨-, -, bb, hbb2, hj⟩ := kaiserWindow_spec Real.sqrt 14 _ window 5 2 hw
  rw [hbb] at hbb2
  cases hbb2
  have htd : Int.tdiv (((5 : Nat) : Int) - 1) 2 = 2 := by decide
  rw [htd] at hj
  obtain ⟨v1, hv1, hw1⟩ := hj 1 (by norm_num) (by norm_num)
  obtain ⟨v3, hv3, hw3⟩ := hj 3 (by norm_num) (by norm_num)
  refine ⟨window, hw, ?_, v3, hw3, ?_⟩
  · rw [hw1]
    unfold kaiser at hv1
    norm_num [hbb] at hv1
    rw [← hv1]
    congr 1
    exact div_self (by linarith)
  · have habs : |2 * Real.sqrt (3 / 4)| < |(2 : ℝ)| := by
      rw [abs_mul, abs_of_nonneg (Real.sqrt_nonneg _)]
      have h : Real.sqrt (3 / 4) < 1 := by
        rw [Real.sqrt_lt' one_pos]
        norm_num
      have h2 : (0 : ℝ) < |2| := by norm_num
      nlinarith
    obtain ⟨ra, hra, -, hlt⟩ := bessel_lt_of_abs_lt habs hb1 hbb
    have hk : kaiser Real.sqrt 14 (((5 : Nat) : Int) - 1) 2 2 (besselSeries ((2 : ℝ) / 2) nb)
        (((5 : Nat) : Int) - ((3 : Nat) : Int)) =
        (bessel 14 (2 * Real.sqrt (3 / 4))).bind
          (fun b => some (b / besselSeries ((2 : ℝ) / 2) nb)) := by
      unfold kaiser
      norm_num
    rw [hk, hra] at hv3
    cases hv3
    exact (div_lt_one (by linarith)).2 hlt

/-! ## The claim on the table emitter -/


theorem lineBreaks_sep_row : lineBreaks ",\n    " = 1 := by decide
theorem lineBreaks_sep : lineBreaks ", " = 0 := by decide
theorem lineBreaks_suffix : lineBreaks "f" = 0 := by decide
theorem lineBreaks_indent : lineBreaks "    " = 0 := by decide
theorem lineBreaks_footer : lineBreaks "\n\x7d;\n\n" = 3 := by decide

/-- What the loop of the table emitter, entered at loop index `i`, writes when
the table has at least `n` entries: three pieces for each of the `n - 1 - i`
remaining entries (separator, conversion, suffix), and how they continue the
current row, which holds `cur = i % 5 + 1` conversions already. -/
theorem emitLoop_spec {α : Type} (table : List α) (n : Nat) (hlen : n ≤ table.length)
    (r : Nat) :
    ∀ i cur, n - 1 - i = r → cur = i % 5 + 1 →
      ∃ rest, emitLoop table n i = some rest ∧ rest.length = 3 * r ∧
        (∀ k, k < r → ∃ v, table[i + 1 + k]? = some v ∧
          rest[3 * k]? = some (Piece.text (if (i + k) % 5 = 4 then ",\n    " else ", ")) ∧
          rest[3 * k + 1]? = some (Piece.fixed 9 v) ∧
          rest[3 * k + 2]? = some (Piece.text "f")) ∧
        ∀ tl, ∃ q c, 1 ≤ c ∧ c ≤ 5 ∧ 5 * q + c = cur + r ∧
          lineCounts cur (rest ++ tl) = List.replicate q 5 ++ lineCounts c tl := by
  induction r with
  | zero =>
    intro i cur hr hcur
    rw [emitLoop, if_neg (by omega)]
    exact ⟨[], rfl, rfl, fun k hk => by omega, fun tl => ⟨0, cur, by omega, by omega, by omega, rfl⟩⟩
  | succ r ih =>
    intro i cur hr hcur
    rw [emitLoop, if_pos (by omega)]
    have hi : i + 1 < table.length := by omega
    have hload : load table ((i : Int) + 1) = some table[i + 1] := by
      have h1 : ((i : Int) + 1).toNat = i + 1 := by omega
      have h2 : (0 : Int) ≤ (i : Int) + 1 := by omega
      simp [load, h1, h2, List.getElem?_eq_getElem hi]
    obtain ⟨rest, hrest, hrlen, hidx, hrows⟩ := ih (i + 1) ((i + 1) % 5 + 1) (by omega) rfl
    refine ⟨_, by simp [hload, hrest]; rfl, by simp [hrlen]; omega, fun k hk => ?_, fun tl => ?_⟩
    · rcases Nat.eq_zero_or_pos k with rfl | hpos
      · exact ⟨table[i + 1], by simp [List.getElem?_eq_getElem hi], by simp, by simp, by simp⟩
      · obtain ⟨k, rfl⟩ : ∃ k', k = k' + 1 := ⟨k - 1, by omega⟩
        obtain ⟨v, hv, h0, h1, h2⟩ := hidx k (by omega)
        have e0 : 3 * (k + 1) = 3 * k + 1 + 1 + 1 := by ring
        have e1 : 3 * (k + 1) + 1 = 3 * k + 1 + 1 + 1 + 1 := by ring
        have e2 : 3 * (k + 1) + 2 = 3 * k + 2 + 1 + 1 + 1 := by ring
        have ei : i + 1 + (k + 1) = i + 1 + 1 + k := by ring
        have ek : i + (k + 1) = i + 1 + k := by ring
        refine ⟨v, by rw [ei]; exact hv, ?_, ?_, ?_⟩
        · rw [e0, ek]; simpa using h0
        · rw [e1]; simpa using h1
        · rw [e2]; simpa using h2
    · obtain ⟨q, c, hc1, hc5, hq, hl⟩ := hrows tl
      by_cases h4 : i % 5 = 4
      · refine ⟨q + 1, c, hc1, hc5, by omega, ?_⟩
        have h5 : (i + 1) % 5 + 1 = 1 := by omega
        rw [h5] at hl
        have hcur5 : cur = 5 := by omega
        simp [lineCounts, h4, lineBreaks_sep_row, lineBreaks_suffix, hl, hcur5,
          List.replicate_succ]
      · refine ⟨q, c, hc1, hc5, by omega, ?_⟩
        have h5 : (i + 1) % 5 + 1 = cur + 1 := by omega
        rw [h5] at hl
        simp [lineCounts, h4, lineBreaks_sep, lineBreaks_suffix, hl]

/-- The rows do not depend on a text that precedes the first conversion. -/
theorem rowSizes_text_cons {α : Type} (s : String) (ps : List (Piece α)) :
    rowSizes (Piece.text s :: ps) = rowSizes ps := by
  unfold rowSizes
  by_cases h : lineBreaks s = 0
  · simp [lineCounts, h]
  · simp [lineCounts, h, List.filter_replicate]

/-- C6: the table emitter, applied to a table of `n ≥ 1` values, writes a
header, then for each `j < n` a separator, the conversion `%.9f` of
`table[j]` and the suffix `f`, then a footer: exactly `n` literals, each with
9 digits after the decimal point and the suffix `f`. The separator of the
literal `j` holds a line break exactly when `j` is a positive multiple of 5,
so the rows hold 5 literals each, except possibly the last one, and there are
`ceil(n / 5)` of them. -/
theorem emitTable_rows {α : Type} (name : String) (table : List α) (n : Nat)
    (hn : 1 ≤ n) (hlen : table.length = n) :
    ∃ out header, emitTable name table n = some out ∧ out.length = 3 * n + 2 ∧
      out[0]? = some (Piece.text header) ∧
      out[3 * n + 1]? = some (Piece.text "\n\x7d;\n\n") ∧
      (∀ j, j < n → ∃ v sep, table[j]? = some v ∧
        sep = (if j = 0 then "    " else if j % 5 = 0 then ",\n    " else ", ") ∧
        (lineBreaks sep ≠ 0 ↔ 0 < j ∧ j % 5 = 0) ∧
        out[3 * j + 1]? = some (Piece.text sep) ∧
        out[3 * j + 2]? = some (Piece.fixed 9 v) ∧
        out[3 * j + 3]? = some (Piece.text "f")) ∧
      rowSizes out = List.replicate (n / 5) 5 ++ (if n % 5 = 0 then [] else [n % 5]) ∧
      (rowSizes out).length = (n + 4) / 5 := by
  obtain ⟨rest, hrest, hrlen, hidx, hrows⟩ := emitLoop_spec table n hlen.ge (n - 1) 0 1 rfl rfl
  have h0 : 0 < table.length := by omega
  have hload : load table 0 = some table[0] := by
    simp [load, List.getElem?_eq_getElem h0]
  have hout : emitTable name table n = some
      (Piece.text ("static const float " ++ name ++ "[RESAMPLER_FILTER_SIZE] = \x7b\n") ::
        Piece.text "    " :: Piece.fixed 9 table[0] :: Piece.text "f" ::
          (rest ++ [Piece.text "\n\x7d;\n\n"])) := by
    simp [emitTable, hload, hrest]
  have hrs : rowSizes
      (Piece.text ("static const float " ++ name ++ "[RESAMPLER_FILTER_SIZE] = \x7b\n") ::
        Piece.text "    " :: Piece.fixed 9 table[0] :: Piece.text "f" ::
          (rest ++ [Piece.text "\n\x7d;\n\n"])) =
      List.replicate (n / 5) 5 ++ (if n % 5 = 0 then [] else [n % 5]) := by
    obtain ⟨q, c, hc1, hc5, hq, hl⟩ := hrows [Piece.text "\n\x7d;\n\n"]
    rw [rowSizes_text_cons]
    have hl2 : lineCounts 0 (Piece.text "    " :: Piece.fixed 9 table[0] :: Piece.text "f" ::
        (rest ++ [Piece.text "\n\x7d;\n\n"])) = List.replicate q 5 ++ [c, 0, 0, 0] := by
      simp [lineCounts, lineBreaks_indent, lineBreaks_suffix, lineBreaks_footer, hl,
        List.replicate_succ]
    have hc0 : c ≠ 0 := by omega
    unfold rowSizes
    rw [hl2]
    by_cases hc : c = 5
    · subst hc
      have h1 : n / 5 = q + 1 := by omega
      have h2 : n % 5 = 0 := by omega
      simp [h1, h2, List.filter_replicate, List.replicate_succ']
    · have h1 : n / 5 = q := by omega
      have h2 : n % 5 = c := by omega
      simp [h1, h2, hc0, List.filter_replicate]
  have hget : ∀ m, m < rest.length →
      (Piece.text ("static const float " ++ name ++ "[RESAMPLER_FILTER_SIZE] = \x7b\n") ::
        Piece.text "    " :: Piece.fixed 9 table[0] :: Piece.text "f" ::
          (rest ++ [Piece.text "\n\x7d;\n\n"]))[m + 4]? = rest[m]? := by
    intro m hm
    simp [List.getElem?_append_left hm]
  refine ⟨_, "static const float " ++ name ++ "[RESAMPLER_FILTER_SIZE] = \x7b\n", hout,
    by simp [hrlen]; omega, by simp, ?_, fun j hj => ?_, hrs, ?_⟩
  · have e : 3 * n + 1 = rest.length + 4 := by omega
    rw [e]
    simp
  · rcases Nat.eq_zero_or_pos j with rfl | hpos
    · exact ⟨table[0], _, by simp [List.getElem?_eq_getElem h0], rfl,
        by simp [lineBreaks_indent], by simp, by simp, by simp⟩
    · obtain ⟨k, rfl⟩ : ∃ k, j = k + 1 := ⟨j - 1, by omega⟩
      obtain ⟨v, hv, h1, h2, h3⟩ := hidx k (by omega)
      have e1 : 3 * (k + 1) + 1 = 3 * k + 4 := by ring
      have e2 : 3 * (k + 1) + 2 = 3 * k + 1 + 4 := by ring
      have e3 : 3 * (k + 1) + 3 = 3 * k + 2 + 4 := by ring
      have hsep : (if (0 + k) % 5 = 4 then ",\n    " else ", ") =
          (if k + 1 = 0 then "    " else if (k + 1) % 5 = 0 then ",\n    " else ", ") := by
        by_cases h4 : k % 5 = 4
        · have h5 : (k + 1) % 5 = 0 := by omega
          simp [h4, h5]
        · have h5 : ¬ (k + 1) % 5 = 0 := by omega
          simp [h4, h5]
      refine ⟨v, _, by simpa [Nat.add_comm] using hv, rfl, ?_, ?_, ?_, ?_⟩
      · by_cases h5 : (k + 1) % 5 = 0
        · simp [h5, lineBreaks_sep_row]
        · simp [h5, lineBreaks_sep]
      · rw [e1, hget _ (by omega), h1, hsep]
      · rw [e2, hget _ (by omega), h2]
      · rw [e3, hget _ (by omega), h3]
  · rw [hrs]
    by_cases h2 : n % 5 = 0
    · simp [h2]; omega
    · simp [h2]; omega

/-- The instance of C6 at a table of 11 values: the rows hold 5, 5 and 1
literals. -/
theorem emitTable_rows_witness :
    ∃ out, emitTable "ResamplerFilter"
        [(1 : ℚ), 2, 3, 4, 5, 6, 7, 8, 9, 10, 11] 11 = some out ∧
      out.length = 35 ∧ rowSizes out = [5, 5, 1] ∧ (rowSizes out).length = 3 := by
  obtain ⟨out, header, h1, h2, -, -, -, h3, h4⟩ := emitTable_rows "ResamplerFilter"
    [(1 : ℚ), 2, 3, 4, 5, 6, 7, 8, 9, 10, 11] 11 (by decide) (by decide)
  exact ⟨out, h1, h2, by rw [h3]; decide, by rw [h4]⟩

/-! ## The claim on `PrepareResampleFilter` -/

/-- C11: `PrepareResampleFilter` calls `kaiser_and_sinc` on the two static
arrays with `tablelen = RESAMPLER_FILTER_SIZE`, which is 2561, and with
`beta = 0.1102 * (80 - 8.7)`, which in exact arithmetic is `0.1102 * 71.3`,
that is 7.857260. -/
theorem PrepareResampleFilter_eq {α : Type} [LinearOrderedField α] (sqrt sinf : α → α)
    (pi : α) (fuel : Nat) (ResamplerFilter ResamplerFilterDifference : List α) :
    PrepareResampleFilter sqrt sinf pi fuel ResamplerFilter ResamplerFilterDifference =
        kaiser_and_sinc sqrt sinf pi fuel ResamplerFilter ResamplerFilterDifference
          RESAMPLER_FILTER_SIZE (7.857260 : α) ∧
      (0.1102 * (80.0 - 8.7) : α) = 0.1102 * 71.3 ∧
      (0.1102 * 71.3 : α) = 7.857260 ∧
      (0.1102 * (80.0 - 8.7) : ℚ) = 7857260 / 1000000 ∧
      RESAMPLER_FILTER_SIZE = 2561 := by
  have h : (0.1102 * (80.0 - 8.7) : α) = 7.857260 := by norm_num
  refine ⟨?_, by norm_num, by norm_num, by norm_num, by decide⟩
  unfold PrepareResampleFilter
  simp only [h]

/-! ## The claim on the division of the second loop -/

/-- C13: in the second loop of `kaiser_and_sinc`, for every loop index `i` in
`[1, tablelen - 1]` the value `x`, by which `sinf(x)` is divided, is strictly
positive, so it is not zero (`M_PI` being positive). -/
theorem sincArg_pos {α : Type} [LinearOrderedField α] (pi : α) (hpi : 0 < pi)
    (tablelen i : Nat) (hi1 : 1 ≤ i) (_hi : i ≤ tablelen - 1) :
    0 < sincArg pi i ∧ sincArg pi i ≠ 0 := by
  have h : 0 < sincArg pi i := by
    unfold sincArg
    have h1 : (0 : α) < (i : α) := by exact_mod_cast hi1
    have h2 : (0 : α) < (RESAMPLER_SAMPLES_PER_ZERO_CROSSING : α) := by
      have : 0 < RESAMPLER_SAMPLES_PER_ZERO_CROSSING := by decide
      exact_mod_cast this
    positivity
  exact ⟨h, h.ne'⟩

/-- The instance of C13 at the reference table length and the last loop
index, in real arithmetic. -/
theorem sincArg_pos_witness :
    0 < sincArg Real.pi 2560 ∧ sincArg Real.pi 2560 ≠ 0 :=
  sincArg_pos Real.pi Real.pi_pos RESAMPLER_FILTER_SIZE 2560 (by decide) (by decide)

/-! ## The claims on the series computed by `bessel` -/

theorem besselSeries_eq_sum {α : Type} [LinearOrderedField α] (xdiv2 : α) (n : Nat) :
    besselSeries xdiv2 n =
      Finset.sum (Finset.range n) (fun i => xdiv2 ^ (2 * i) / ((i.factorial : Nat) : α) ^ 2) := by
  induction n with
  | zero => simp [besselSeries]
  | succ n ih =>
    rw [besselSeries_succ, Finset.sum_range_succ, ih, besselTerm, Nat.mul_comm]

theorem besselLoop_succ {α : Type} [LinearOrderedField α] (xdiv2 : α) (fuel i : Nat)
    (f i0 : α) :
    besselLoop xdiv2 (fuel + 1) i f i0 =
      if xdiv2 ^ (i * 2) / f ^ 2 < besselThreshold then some i0
      else besselLoop xdiv2 fuel (i + 1) (f * ((i + 1 : Nat) : α))
        (i0 + xdiv2 ^ (i * 2) / f ^ 2) := rfl

/-- The run of `bessel` passes through the loop states `i = k + 1`,
`f = (k + 1)!`, `i0` the partial sum of the terms of index `0, ..., k`, for
every `k` below the first index `m ≥ 1` whose term is below the threshold. -/
theorem bessel_eq_besselLoop {α : Type} [LinearOrderedField α] (x : α) (m : Nat)
    (hmin : ∀ k, 1 ≤ k → k < m → ¬ besselTerm (x / 2) k < besselThreshold) :
    ∀ k, k + 1 ≤ m → ∀ fuel, bessel (fuel + k) x =
      besselLoop (x / 2) fuel (k + 1) (((k + 1).factorial : Nat) : α)
        (besselSeries (x / 2) (k + 1)) := by
  intro k
  induction k with
  | zero =>
    intro _ fuel
    simp [bessel, besselSeries_one]
  | succ k ih =>
    intro hk fuel
    have h := ih (by omega) (fuel + 1)
    rw [Nat.add_assoc, Nat.add_comm 1 k] at h
    rw [h, besselLoop_succ]
    change (if besselTerm (x / 2) (k + 1) < besselThreshold then _ else
      besselLoop (x / 2) fuel (k + 1 + 1) _ (_ + besselTerm (x / 2) (k + 1))) = _
    rw [if_neg (hmin (k + 1) (by omega) (by omega)), ← besselSeries_succ, ← Nat.cast_mul,
      Nat.mul_comm, ← Nat.factorial_succ]

/-- C12: in real arithmetic, for every `x`, `bessel(x)` is the partial sum of
the terms `(x/2)^(2i) / (i!)^2` of index `0, ..., N`, where `N + 1` is the
smallest index `i ≥ 1` whose term is below the threshold: it returns this sum
from the fuel `N + 1` on, and never anything else. The run passes, for every
`k ≤ N`, through the loop state `i = k + 1`, `f = i!`, `i0` the sum of the
terms of index `0, ..., k`; the term of index `N + 1` is computed and not
added. -/
theorem bessel_eq_partial_sum (x : ℝ) :
    ∃ N : Nat,
      (x / 2) ^ (2 * (N + 1)) / (((N + 1).factorial : Nat) : ℝ) ^ 2 < 1 / 10 ^ 21 ∧
      (∀ i, 1 ≤ i → i < N + 1 →
        ¬ (x / 2) ^ (2 * i) / ((i.factorial : Nat) : ℝ) ^ 2 < 1 / 10 ^ 21) ∧
      (∀ fuel, N + 1 ≤ fuel → bessel fuel x = some
        (Finset.sum (Finset.range (N + 1))
          (fun i => (x / 2) ^ (2 * i) / ((i.factorial : Nat) : ℝ) ^ 2))) ∧
      (∀ fuel r, bessel fuel x = some r → r =
        Finset.sum (Finset.range (N + 1))
          (fun i => (x / 2) ^ (2 * i) / ((i.factorial : Nat) : ℝ) ^ 2)) ∧
      ∀ k, k ≤ N → ∀ fuel, bessel (fuel + k) x =
        besselLoop (x / 2) fuel (k + 1) (((k + 1).factorial : Nat) : ℝ)
          (Finset.sum (Finset.range (k + 1))
            (fun i => (x / 2) ^ (2 * i) / ((i.factorial : Nat) : ℝ) ^ 2)) := by
  obtain ⟨m, hm1, hm, hmin⟩ := exists_first_small_term x
  obtain ⟨N, rfl⟩ : ∃ N, m = N + 1 := ⟨m - 1, by omega⟩
  have hterm : ∀ i, besselTerm (x / 2) i =
      (x / 2) ^ (2 * i) / ((i.factorial : Nat) : ℝ) ^ 2 := by
    intro i
    rw [besselTerm, Nat.mul_comm]
  have hthr : (besselThreshold : ℝ) = 1 / 10 ^ 21 := rfl
  refine ⟨N, ?_, fun i h1 h2 => ?_, fun fuel hfuel => ?_, fun fuel r h => ?_,
    fun k hk fuel => ?_⟩
  · rw [← hterm, ← hthr]; exact hm
  · rw [← hterm, ← hthr]; exact hmin i h1 h2
  · rw [← besselSeries_eq_sum]; exact bessel_eq_series x _ fuel hm1 hm hmin hfuel
  · rw [← besselSeries_eq_sum]; exact bessel_value_unique hm1 hm hmin h
  · rw [← besselSeries_eq_sum]; exact bessel_eq_besselLoop x _ hmin k (by omega) fuel

/-- C15: in real arithmetic the loop of `bessel` terminates for every `x`:
there is an index `i ≥ 1` with `(x/2)^(2i) / (i!)^2` below the threshold, and
`bessel` returns, the same value from some fuel on. -/
theorem bessel_terminates (x : ℝ) :
    (∃ i : Nat, 1 ≤ i ∧ (x / 2) ^ (2 * i) / ((i.factorial : Nat) : ℝ) ^ 2 < 1 / 10 ^ 21) ∧
      ∃ N r, ∀ fuel, N ≤ fuel → bessel fuel x = some r := by
  obtain ⟨m, hm1, hm, hmin⟩ := exists_first_small_term x
  refine ⟨⟨m, hm1, ?_⟩, m, _, fun fuel hfuel => bessel_eq_series x m fuel hm1 hm hmin hfuel⟩
  have h : besselTerm (x / 2) m < besselThreshold := hm
  rwa [besselTerm, Nat.mul_comm] at h

theorem besselTerm_succ {α : Type} [LinearOrderedField α] (xdiv2 : α) (m : Nat) :
    besselTerm xdiv2 (m + 1) =
      besselTerm xdiv2 m * (xdiv2 ^ 2 / ((m + 1 : Nat) : α) ^ 2) := by
  unfold besselTerm
  have h1 : ((m.factorial : Nat) : α) ≠ 0 := Nat.cast_ne_zero.2 (Nat.factorial_ne_zero m)
  have h2 : ((m + 1 : Nat) : α) ≠ 0 := Nat.cast_ne_zero.2 (Nat.succ_ne_zero m)
  rw [Nat.factorial_succ, Nat.cast_mul]
  field_simp
  ring

/-- From the first index `n ≥ 1` whose term is below the threshold on, the
terms of the series do not increase. -/
theorem besselTerm_le_of_first_small {α : Type} [LinearOrderedField α] (xdiv2 : α) (n : Nat)
    (hn1 : 1 ≤ n) (hn : besselTerm xdiv2 n < besselThreshold)
    (hmin : ∀ k, 1 ≤ k → k < n → ¬ besselTerm xdiv2 k < besselThreshold) :
    ∀ m, n ≤ m → besselTerm xdiv2 m ≤ besselTerm xdiv2 n := by
  have hc : xdiv2 ^ 2 ≤ ((n : Nat) : α) ^ 2 := by
    obtain ⟨p, rfl⟩ : ∃ p, n = p + 1 := ⟨n - 1, by omega⟩
    by_contra hcon
    push_neg at hcon
    have hpos : (0 : α) < ((p + 1 : Nat) : α) ^ 2 := by positivity
    have hratio : 1 ≤ xdiv2 ^ 2 / ((p + 1 : Nat) : α) ^ 2 := by
      rw [le_div_iff₀ hpos]; linarith
    have hge : besselTerm xdiv2 p ≤ besselTerm xdiv2 (p + 1) := by
      rw [besselTerm_succ]
      exact le_mul_of_one_le_right (besselTerm_nonneg xdiv2 p) hratio
    rcases Nat.eq_zero_or_pos p with rfl | hp
    · have h0 : besselTerm xdiv2 0 = 1 := by simp [besselTerm]
      have hthr : (besselThreshold : α) ≤ 1 := by
        unfold besselThreshold
        rw [div_le_one (by positivity)]
        exact one_le_pow₀ (by norm_num)
      rw [h0] at hge
      exact absurd (lt_of_le_of_lt hge hn) (not_lt.2 hthr)
    · exact hmin p hp (by omega) (lt_of_le_of_lt hge hn)
  intro m hm
  induction m, hm using Nat.le_induction with
  | base => exact le_rfl
  | succ m hnm ih =>
    refine le_trans ?_ ih
    rw [besselTerm_succ]
    apply mul_le_of_le_one_right (besselTerm_nonneg xdiv2 m)
    have hpos : (0 : α) < ((m + 1 : Nat) : α) ^ 2 := by positivity
    rw [div_le_one hpos]
    refine hc.trans (pow_le_pow_left₀ (Nat.cast_nonneg n) ?_ 2)
    exact_mod_cast (by omega : n ≤ m + 1)

theorem summable_besselTerm (xdiv2 : ℝ) : Summable (fun i => besselTerm xdiv2 i) := by
  refine Summable.of_nonneg_of_le (besselTerm_nonneg xdiv2) (fun i => ?_)
    (Real.summable_pow_div_factorial (xdiv2 ^ 2))
  unfold besselTerm
  rw [Nat.mul_comm, pow_mul]
  apply div_le_div_of_nonneg_left (by positivity) (by positivity)
  have h1 : (1 : ℝ) ≤ (i.factorial : ℝ) := by exact_mod_cast i.factorial_pos
  nlinarith

/-- C14: in real arithmetic, for every `x`, with `n ≥ 1` the index at which
the loop of `bessel` exits (the first whose term `(x/2)^(2n) / (n!)^2` is
below the threshold, where `bessel` returns the sum of the terms below `n`),
every term of index `m ≥ n` is below the threshold too, and the value
`bessel` returns is at most the sum of the whole series. -/
theorem bessel_truncation_sound (x : ℝ) :
    ∃ n : Nat, 1 ≤ n ∧ besselTerm (x / 2) n < besselThreshold ∧
      (∀ k, 1 ≤ k → k < n → ¬ besselTerm (x / 2) k < besselThreshold) ∧
      (∀ fuel, n ≤ fuel → bessel fuel x = some (besselSeries (x / 2) n)) ∧
      (∀ m, n ≤ m → (x / 2) ^ (2 * m) / ((m.factorial : Nat) : ℝ) ^ 2 < 1 / 10 ^ 21) ∧
      Summable (fun i => (x / 2) ^ (2 * i) / ((i.factorial : Nat) : ℝ) ^ 2) ∧
      ∀ fuel r, bessel fuel x = some r →
        r ≤ tsum (fun i => (x / 2) ^ (2 * i) / ((i.factorial : Nat) : ℝ) ^ 2) := by
  obtain ⟨n, hn1, hn, hmin⟩ := exists_first_small_term x
  have hfun : (fun i => (x / 2) ^ (2 * i) / ((i.factorial : Nat) : ℝ) ^ 2) =
      fun i => besselTerm (x / 2) i := by
    funext i
    rw [besselTerm, Nat.mul_comm]
  refine ⟨n, hn1, hn, hmin, fun fuel hfuel => bessel_eq_series x n fuel hn1 hn hmin hfuel,
    fun m hm => ?_, ?_, fun fuel r h => ?_⟩
  · have h := lt_of_le_of_lt (besselTerm_le_of_first_small (x / 2) n hn1 hn hmin m hm) hn
    rwa [besselTerm, Nat.mul_comm] at h
  · rw [hfun]; exact summable_besselTerm (x / 2)
  · rw [bessel_value_unique hn1 hn hmin h, hfun, besselSeries_eq_sum]
    have hs := sum_le_tsum (Finset.range n)
      (fun i _ => besselTerm_nonneg (x / 2) i) (summable_besselTerm (x / 2))
    simpa [besselTerm, Nat.mul_comm] using hs

/-! ## The claims on the window values and on well-definedness -/

/-- The value `kaiser` in terms of the argument of `sqrt`. -/
theorem kaiser_eq_windowArg {α : Type} [LinearOrderedField α] (sqrt : α → α) (fuel : Nat)
    (lenm1 lenm1div2 : Int) (beta bb : α) (i : Int) :
    kaiser sqrt fuel lenm1 lenm1div2 beta bb i =
      (bessel fuel (beta * sqrt (windowArg lenm1 lenm1div2 i))).bind
        (fun b => some (b / bb)) := rfl

/-- For an odd `tablelen`, `lenm1div2` is half of `lenm1`. -/
theorem lenm1div2_eq (tablelen : Nat) (hodd : tablelen % 2 = 1) :
    2 * Int.tdiv ((tablelen : Int) - 1) 2 = (tablelen : Int) - 1 := by
  rw [Int.tdiv_eq_ediv (by omega) (by decide)]
  omega

/-- For an odd `tablelen`, the argument of `sqrt` at the loop index that
targets the table index `j` is `1 - ((j - 1) / lenm1)^2`. -/
theorem windowArg_eq {α : Type} [LinearOrderedField α] (tablelen : Nat)
    (hodd : tablelen % 2 = 1) (h3 : 3 ≤ tablelen) (j : Nat) :
    (windowArg ((tablelen : Int) - 1) (Int.tdiv ((tablelen : Int) - 1) 2)
        ((tablelen : Int) - (j : Int)) : α) =
      1 - (((j : α) - 1) / ((tablelen : α) - 1)) ^ 2 := by
  have h2 := lenm1div2_eq tablelen hodd
  have hc : (2 : α) * ((Int.tdiv ((tablelen : Int) - 1) 2 : Int) : α) = (tablelen : α) - 1 := by
    have := congrArg (Int.cast : Int → α) h2
    push_cast at this
    exact this
  have hne : ((Int.tdiv ((tablelen : Int) - 1) 2 : Int) : α) ≠ 0 := by
    intro h0
    rw [h0, mul_zero] at hc
    have h3' : (3 : α) ≤ (tablelen : α) := by exact_mod_cast h3
    linarith
  have hne2 : (tablelen : α) - 1 ≠ 0 := by
    rw [← hc]
    exact mul_ne_zero two_ne_zero hne
  unfold windowArg
  congr 1
  rw [← hc]
  push_cast
  field_simp
  ring

/-- In real arithmetic the first part of `kaiser_and_sinc` returns from some
fuel on, for every `tablelen ≥ 1`, every `beta` and every table of at least
`tablelen` entries. -/
theorem kaiserWindow_returns (table0 : List ℝ) (tablelen : Nat) (beta : ℝ)
    (h1 : 1 ≤ tablelen) (hlen : tablelen ≤ table0.length) :
    ∃ N, ∀ fuel, N ≤ fuel →
      ∃ window, kaiserWindow Real.sqrt fuel table0 tablelen beta = some window := by
  obtain ⟨m, -, hm⟩ := bessel_returns beta
  refine ⟨m, fun fuel hfuel => ?_⟩
  refine kaiserWindow_returns_of Real.sqrt fuel table0 tablelen beta _ (hm fuel hfuel)
    (fun i _ _ => ?_) h1 hlen
  obtain ⟨v, hv, -⟩ := kaiser_spec Real.sqrt abs_sqrt_le_one fuel _ _ beta _ i (hm fuel hfuel)
  exact ⟨v, hv⟩

/-- C16: in real arithmetic, for odd `tablelen ≥ 3`, `beta ≥ 0` and a table of
`tablelen` entries, the first loop of `kaiser_and_sinc` returns from some fuel
on, and leaves at every index `j`, `1 ≤ j ≤ tablelen - 1`, the value
`bessel(beta * sqrt(1 - ((j - 1) / lenm1)^2)) / bessel(beta)`; so index 1
holds 1, and the values do not increase with the index. -/
theorem kaiserWindow_values (table0 : List ℝ) (tablelen : Nat) (beta : ℝ)
    (hodd : tablelen % 2 = 1) (h3 : 3 ≤ tablelen) (hbeta : 0 ≤ beta)
    (hlen : table0.length = tablelen) :
    (∃ N, ∀ fuel, N ≤ fuel →
      ∃ window, kaiserWindow Real.sqrt fuel table0 tablelen beta = some window) ∧
    ∀ fuel window, kaiserWindow Real.sqrt fuel table0 tablelen beta = some window →
      ∃ bb, bessel fuel beta = some bb ∧
        (∀ j, 1 ≤ j → j ≤ tablelen - 1 →
          ∃ b, bessel fuel
              (beta * Real.sqrt (1 - (((j : ℝ) - 1) / ((tablelen : ℝ) - 1)) ^ 2)) = some b ∧
            window[j]? = some (b / bb)) ∧
        window[1]? = some 1 ∧
        ∀ j k, 1 ≤ j → j ≤ k → k ≤ tablelen - 1 →
          ∃ vj vk, window[j]? = some vj ∧ window[k]? = some vk ∧ vk ≤ vj := by
  refine ⟨kaiserWindow_returns table0 tablelen beta (by omega) hlen.ge,
    fun fuel window h => ?_⟩
  obtain ⟨-, -, bb, hbb, hj⟩ := kaiserWindow_spec Real.sqrt fuel table0 window tablelen beta h
  have hbb1 : 1 ≤ bb := by
    obtain ⟨m, hm1, -, -, -, rfl⟩ := bessel_eq_some hbb
    exact one_le_besselSeries _ hm1
  have hval : ∀ j, 1 ≤ j → j ≤ tablelen - 1 →
      ∃ b, bessel fuel
          (beta * Real.sqrt (1 - (((j : ℝ) - 1) / ((tablelen : ℝ) - 1)) ^ 2)) = some b ∧
        window[j]? = some (b / bb) := by
    intro j hj1 hjn
    obtain ⟨v, hv, hw⟩ := hj j hj1 (by omega)
    rw [kaiser_eq_windowArg, windowArg_eq tablelen hodd h3 j] at hv
    simp only [Option.bind_eq_some] at hv
    obtain ⟨b, hb, hbv⟩ := hv
    cases hbv
    exact ⟨b, hb, hw⟩
  have hn : (0 : ℝ) < (tablelen : ℝ) - 1 := by
    have : (3 : ℝ) ≤ (tablelen : ℝ) := by exact_mod_cast h3
    linarith
  refine ⟨bb, hbb, hval, ?_, fun j k hj1 hjk hkn => ?_⟩
  · obtain ⟨b, hb, hw⟩ := hval 1 le_rfl (by omega)
    have harg : beta * Real.sqrt (1 - ((((1 : Nat) : ℝ) - 1) / ((tablelen : ℝ) - 1)) ^ 2)
        = beta := by
      norm_num
    rw [harg, hbb] at hb
    cases hb
    rw [hw, div_self (by linarith)]
  · obtain ⟨bj, hbj, hwj⟩ := hval j hj1 (by omega)
    obtain ⟨bk, hbk, hwk⟩ := hval k (by omega) hkn
    refine ⟨_, _, hwj, hwk, ?_⟩
    have hjk' : ((j : ℝ) - 1) / ((tablelen : ℝ) - 1) ≤ ((k : ℝ) - 1) / ((tablelen : ℝ) - 1) := by
      apply div_le_div_of_nonneg_right _ hn.le
      have : (j : ℝ) ≤ (k : ℝ) := by exact_mod_cast hjk
      linarith
    have hj0 : 0 ≤ ((j : ℝ) - 1) / ((tablelen : ℝ) - 1) := by
      apply div_nonneg _ hn.le
      have : (1 : ℝ) ≤ (j : ℝ) := by exact_mod_cast hj1
      linarith
    have hsq : Real.sqrt (1 - (((k : ℝ) - 1) / ((tablelen : ℝ) - 1)) ^ 2) ≤
        Real.sqrt (1 - (((j : ℝ) - 1) / ((tablelen : ℝ) - 1)) ^ 2) := by
      apply Real.sqrt_le_sqrt
      have := pow_le_pow_left₀ hj0 hjk' 2
      linarith
    have habs : |beta * Real.sqrt (1 - (((k : ℝ) - 1) / ((tablelen : ℝ) - 1)) ^ 2)| ≤
        |beta * Real.sqrt (1 - (((j : ℝ) - 1) / ((tablelen : ℝ) - 1)) ^ 2)| := by
      rw [abs_of_nonneg (mul_nonneg hbeta (Real.sqrt_nonneg _)),
        abs_of_nonneg (mul_nonneg hbeta (Real.sqrt_nonneg _))]
      exact mul_le_mul_of_nonneg_left hsq hbeta
    obtain ⟨ra, hra, -, hle⟩ := bessel_le_of_abs_le habs hbj
    rw [hbk] at hra
    cases hra
    exact div_le_div_of_nonneg_right hle (by linarith)

/-- The instance of C16 at the reference parameters: `tablelen` is
`RESAMPLER_FILTER_SIZE`, `beta` is `0.1102 * (80 - 8.7)`, zeroed table. -/
theorem kaiserWindow_values_witness :
    (∃ N, ∀ fuel, N ≤ fuel →
      ∃ window, kaiserWindow Real.sqrt fuel (List.replicate RESAMPLER_FILTER_SIZE 0)
        RESAMPLER_FILTER_SIZE (0.1102 * (80 - 8.7)) = some window) ∧
    ∀ fuel window, kaiserWindow Real.sqrt fuel (List.replicate RESAMPLER_FILTER_SIZE 0)
        RESAMPLER_FILTER_SIZE (0.1102 * (80 - 8.7)) = some window →
      ∃ bb, bessel fuel (0.1102 * (80 - 8.7) : ℝ) = some bb ∧
        (∀ j, 1 ≤ j → j ≤ RESAMPLER_FILTER_SIZE - 1 →
          ∃ b, bessel fuel
              ((0.1102 * (80 - 8.7)) * Real.sqrt
                (1 - (((j : ℝ) - 1) / ((RESAMPLER_FILTER_SIZE : ℝ) - 1)) ^ 2)) = some b ∧
            window[j]? = some (b / bb)) ∧
        window[1]? = some 1 ∧
        ∀ j k, 1 ≤ j → j ≤ k → k ≤ RESAMPLER_FILTER_SIZE - 1 →
          ∃ vj vk, window[j]? = some vj ∧ window[k]? = some vk ∧ vk ≤ vj :=
  kaiserWindow_values (List.replicate RESAMPLER_FILTER_SIZE 0) RESAMPLER_FILTER_SIZE
    (0.1102 * (80 - 8.7)) (by decide) (by decide) (by norm_num) (List.length_replicate _ _)

/-! ## The claim on the zero crossings -/

/-- The constant `M_PI_float` is the single precision value nearest to the
`M_PI` of `math.h`: it is within half a unit in the last place, `2^-23`. -/
theorem M_PI_float_nearest :
    |(3.14159265358979323846 : ℚ) - M_PI_float| < 1 / 2 ^ 23 := by
  unfold M_PI_float
  rw [abs_lt]
  constructor <;> norm_num

/-- C18: for every odd `tablelen ≥ 3`, `kaiser_and_sinc` is well defined.
The divisor `lenm1div2` is not zero; at every loop index `i` in
`[1, tablelen - 1]` the argument of `sqrt` (the one `kaiser` is computed
from) lies in `(0, 1]`, and the indices `tablelen - i`, `i`, `i - 1` lie in
`[0, tablelen - 1]`, as does `lenm1`; and in real arithmetic, on buffers of
exactly `tablelen` entries, where an access outside the buffer would make the
run fail, `kaiser_and_sinc` returns from some fuel on. -/
theorem kaiser_and_sinc_well_defined (table0 diffs0 : List ℝ) (tablelen : Nat) (beta : ℝ)
    (hodd : tablelen % 2 = 1) (h3 : 3 ≤ tablelen)
    (hlen : table0.length = tablelen) (hdlen : diffs0.length = tablelen) :
    Int.tdiv ((tablelen : Int) - 1) 2 ≠ 0 ∧
    (∀ i : Nat, 1 ≤ i → i ≤ tablelen - 1 →
      (∀ fuel bb, kaiser Real.sqrt fuel ((tablelen : Int) - 1)
          (Int.tdiv ((tablelen : Int) - 1) 2) beta bb i =
        (bessel fuel (beta * Real.sqrt (windowArg ((tablelen : Int) - 1)
          (Int.tdiv ((tablelen : Int) - 1) 2) i))).bind (fun b => some (b / bb))) ∧
      (0 : ℝ) < windowArg ((tablelen : Int) - 1) (Int.tdiv ((tablelen : Int) - 1) 2) i ∧
      (windowArg ((tablelen : Int) - 1) (Int.tdiv ((tablelen : Int) - 1) 2) i : ℝ) ≤ 1 ∧
      0 ≤ (tablelen : Int) - (i : Int) ∧ (tablelen : Int) - (i : Int) ≤ (tablelen : Int) - 1 ∧
      0 ≤ (i : Int) ∧ (i : Int) ≤ (tablelen : Int) - 1 ∧
      0 ≤ (i : Int) - 1 ∧ (i : Int) - 1 ≤ (tablelen : Int) - 1) ∧
    (0 ≤ (tablelen : Int) - 1 ∧ (tablelen : Int) - 1 ≤ (tablelen : Int) - 1) ∧
    ∃ N, ∀ fuel, N ≤ fuel → ∃ table diffs,
      kaiser_and_sinc Real.sqrt Real.sin Real.pi fuel table0 diffs0 tablelen beta
        = some (table, diffs) ∧ table.length = tablelen ∧ diffs.length = tablelen := by
  have h2 := lenm1div2_eq tablelen hodd
  refine ⟨by omega, fun i hi1 hi => ⟨fun fuel bb => kaiser_eq_windowArg _ _ _ _ _ _ _, ?_, ?_,
    by omega, by omega, by omega, by omega, by omega, by omega⟩, ⟨by omega, le_rfl⟩, ?_⟩
  · have he : ((i : Nat) : Int) = (tablelen : Int) - ((tablelen - i : Nat) : Int) := by omega
    rw [he, windowArg_eq tablelen hodd h3 (tablelen - i)]
    have hn : (0 : ℝ) < (tablelen : ℝ) - 1 := by
      have : (3 : ℝ) ≤ (tablelen : ℝ) := by exact_mod_cast h3
      linarith
    have hj1 : (1 : ℝ) ≤ ((tablelen - i : Nat) : ℝ) := by
      exact_mod_cast (by omega : 1 ≤ tablelen - i)
    have hj2 : ((tablelen - i : Nat) : ℝ) ≤ (tablelen : ℝ) - 1 := by
      have : ((tablelen - i : Nat) : ℝ) + 1 ≤ (tablelen : ℝ) := by
        exact_mod_cast (by omega : tablelen - i + 1 ≤ tablelen)
      linarith
    have hr0 : 0 ≤ (((tablelen - i : Nat) : ℝ) - 1) / ((tablelen : ℝ) - 1) :=
      div_nonneg (by linarith) hn.le
    have hr1 : (((tablelen - i : Nat) : ℝ) - 1) / ((tablelen : ℝ) - 1) < 1 := by
      rw [div_lt_one hn]
      linarith
    nlinarith
  · unfold windowArg
    exact sub_le_self _ (sq_nonneg _)
  · obtain ⟨N, hN⟩ := kaiser_and_sinc_returns Real.sin Real.pi table0 diffs0 tablelen beta
      (by omega) hlen.ge hdlen.ge
    refine ⟨N, fun fuel hfuel => ?_⟩
    obtain ⟨table, diffs, h⟩ := hN fuel hfuel
    obtain ⟨window, d, hw, hs, -, -, rfl⟩ :=
      kaiser_and_sinc_stages Real.sqrt Real.sin Real.pi fuel table0 diffs0 table diffs
        tablelen beta h
    obtain ⟨hwlen, -⟩ := kaiserWindow_spec Real.sqrt fuel table0 window tablelen beta hw
    obtain ⟨htlen, hdl, -⟩ :=
      sincLoop_spec Real.sin Real.pi tablelen _ 1 window diffs0 table d rfl le_rfl hs
    exact ⟨table, _, h, by omega, by simp; omega⟩

/-- The instance of C18 at the reference parameters: `tablelen` is
`RESAMPLER_FILTER_SIZE`, `beta` is `0.1102 * (80 - 8.7)`, zeroed buffers. -/
theorem kaiser_and_sinc_well_defined_witness :
    Int.tdiv ((RESAMPLER_FILTER_SIZE : Int) - 1) 2 ≠ 0 ∧
    (∀ i : Nat, 1 ≤ i → i ≤ RESAMPLER_FILTER_SIZE - 1 →
      (∀ fuel bb, kaiser Real.sqrt fuel ((RESAMPLER_FILTER_SIZE : Int) - 1)
          (Int.tdiv ((RESAMPLER_FILTER_SIZE : Int) - 1) 2) (0.1102 * (80 - 8.7)) bb i =
        (bessel fuel ((0.1102 * (80 - 8.7)) *
          Real.sqrt (windowArg ((RESAMPLER_FILTER_SIZE : Int) - 1)
          (Int.tdiv ((RESAMPLER_FILTER_SIZE : Int) - 1) 2) i))).bind (fun b => some (b / bb))) ∧
      (0 : ℝ) < windowArg ((RESAMPLER_FILTER_SIZE : Int) - 1)
        (Int.tdiv ((RESAMPLER_FILTER_SIZE : Int) - 1) 2) i ∧
      (windowArg ((RESAMPLER_FILTER_SIZE : Int) - 1)
        (Int.tdiv ((RESAMPLER_FILTER_SIZE : Int) - 1) 2) i : ℝ) ≤ 1 ∧
      0 ≤ (RESAMPLER_FILTER_SIZE : Int) - (i : Int) ∧
      (RESAMPLER_FILTER_SIZE : Int) - (i : Int) ≤ (RESAMPLER_FILTER_SIZE : Int) - 1 ∧
      0 ≤ (i : Int) ∧ (i : Int) ≤ (RESAMPLER_FILTER_SIZE : Int) - 1 ∧
      0 ≤ (i : Int) - 1 ∧ (i : Int) - 1 ≤ (RESAMPLER_FILTER_SIZE : Int) - 1) ∧
    (0 ≤ (RESAMPLER_FILTER_SIZE : Int) - 1 ∧
      (RESAMPLER_FILTER_SIZE : Int) - 1 ≤ (RESAMPLER_FILTER_SIZE : Int) - 1) ∧
    ∃ N, ∀ fuel, N ≤ fuel → ∃ table diffs,
      kaiser_and_sinc Real.sqrt Real.sin Real.pi fuel
        (List.replicate RESAMPLER_FILTER_SIZE 0) (List.replicate RESAMPLER_FILTER_SIZE 0)
        RESAMPLER_FILTER_SIZE (0.1102 * (80 - 8.7)) = some (table, diffs) ∧
      table.length = RESAMPLER_FILTER_SIZE ∧ diffs.length = RESAMPLER_FILTER_SIZE :=
  kaiser_and_sinc_well_defined (List.replicate RESAMPLER_FILTER_SIZE 0)
    (List.replicate RESAMPLER_FILTER_SIZE 0) RESAMPLER_FILTER_SIZE (0.1102 * (80 - 8.7))
    (by decide) (by decide) (List.length_replicate _ _) (List.length_replicate _ _)

/-! ## The claim on the symmetry of the window, amended -/

/-- In real arithmetic, for an odd `tablelen ≥ 3`, the first loop leaves at
every table index `j`, `1 ≤ j ≤ tablelen - 1`, the value
`bessel(beta * sqrt(1 - ((j - 1) / lenm1)^2)) / bessel(beta)`, both values of
`bessel` being at least 1. -/
theorem kaiserWindow_value_eq (fuel : Nat) (table0 window : List ℝ) (tablelen : Nat)
    (beta : ℝ) (hodd : tablelen % 2 = 1) (h3 : 3 ≤ tablelen)
    (h : kaiserWindow Real.sqrt fuel table0 tablelen beta = some window) :
    ∃ bb, bessel fuel beta = some bb ∧ 1 ≤ bb ∧
      ∀ j, 1 ≤ j → j ≤ tablelen - 1 →
        ∃ b, bessel fuel
            (beta * Real.sqrt (1 - (((j : ℝ) - 1) / ((tablelen : ℝ) - 1)) ^ 2)) = some b ∧
          1 ≤ b ∧ window[j]? = some (b / bb) := by
  obtain ⟨-, -, bb, hbb, hj⟩ := kaiserWindow_spec Real.sqrt fuel table0 window tablelen beta h
  have hbb1 : 1 ≤ bb := by
    obtain ⟨m, hm1, -, -, -, rfl⟩ := bessel_eq_some hbb
    exact one_le_besselSeries _ hm1
  refine ⟨bb, hbb, hbb1, fun j hj1 hjn => ?_⟩
  obtain ⟨v, hv, hw⟩ := hj j hj1 (by omega)
  rw [kaiser_eq_windowArg, windowArg_eq tablelen hodd h3 j] at hv
  simp only [Option.bind_eq_some] at hv
  obtain ⟨b, hb, hbv⟩ := hv
  cases hbv
  have hb1 : 1 ≤ b := by
    obtain ⟨m, hm1, -, -, -, rfl⟩ := bessel_eq_some hb
    exact one_le_besselSeries _ hm1
  exact ⟨b, hb, hb1, hw⟩

/-- C10, amended: the window is not symmetric about the centre index of the
table, it is the decaying half of a Kaiser window. In real arithmetic, for
odd `tablelen ≥ 3`, every `beta` and a table of `tablelen` entries, the first
loop of `kaiser_and_sinc` returns from some fuel on, and in the window it
leaves, index 1 holds the peak 1, every value at an index in `[1, lenm1]` lies
in `(0, 1]`, and for every `k` with `1 ≤ k ≤ lenm1 - k` the value at
`lenm1 - k` is at most the value at `k`; it is strictly smaller when
`k < lenm1 - k` and the first series term of `bessel` at the argument of index
`k`, `(beta * sqrt(1 - ((k - 1) / lenm1)^2) / 2)^2`, is not below the
threshold. -/
theorem kaiserWindow_decaying_half (table0 : List ℝ) (tablelen : Nat) (beta : ℝ)
    (hodd : tablelen % 2 = 1) (h3 : 3 ≤ tablelen) (hlen : table0.length = tablelen) :
    (∃ N, ∀ fuel, N ≤ fuel →
      ∃ window, kaiserWindow Real.sqrt fuel table0 tablelen beta = some window) ∧
    ∀ fuel window, kaiserWindow Real.sqrt fuel table0 tablelen beta = some window →
      window[1]? = some 1 ∧
      (∀ j, 1 ≤ j → j ≤ tablelen - 1 → ∃ v, window[j]? = some v ∧ 0 < v ∧ v ≤ 1) ∧
      ∀ k, 1 ≤ k → k ≤ tablelen - 1 - k →
        ∃ a b, window[k]? = some a ∧ window[tablelen - 1 - k]? = some b ∧ b ≤ a ∧
          (k < tablelen - 1 - k →
            ¬ (beta * Real.sqrt (1 - (((k : ℝ) - 1) / ((tablelen : ℝ) - 1)) ^ 2) / 2) ^ 2
              < 1 / 10 ^ 21 →
            b < a) := by
  refine ⟨kaiserWindow_returns table0 tablelen beta (by omega) hlen.ge,
    fun fuel window h => ?_⟩
  obtain ⟨bb, hbb, hbb1, hval⟩ := kaiserWindow_value_eq fuel table0 window tablelen beta hodd h3 h
  have hbb0 : 0 < bb := lt_of_lt_of_le one_pos hbb1
  have hn : (0 : ℝ) < (tablelen : ℝ) - 1 := by
    have : (3 : ℝ) ≤ (tablelen : ℝ) := by exact_mod_cast h3
    linarith
  -- the argument of `sqrt` at index `j` and its range
  have harg : ∀ j : Nat, 1 ≤ j → j ≤ tablelen - 1 →
      0 ≤ ((j : ℝ) - 1) / ((tablelen : ℝ) - 1) ∧ ((j : ℝ) - 1) / ((tablelen : ℝ) - 1) < 1 := by
    intro j hj1 hjn
    have h1 : (1 : ℝ) ≤ (j : ℝ) := by exact_mod_cast hj1
    have h2 : (j : ℝ) + 1 ≤ (tablelen : ℝ) := by exact_mod_cast (by omega : j + 1 ≤ tablelen)
    exact ⟨div_nonneg (by linarith) hn.le, (div_lt_one hn).2 (by linarith)⟩
  refine ⟨?_, fun j hj1 hjn => ?_, fun k hk1 hk => ?_⟩
  · obtain ⟨b, hb, -, hw⟩ := hval 1 le_rfl (by omega)
    have h1 : beta * Real.sqrt (1 - ((((1 : Nat) : ℝ) - 1) / ((tablelen : ℝ) - 1)) ^ 2)
        = beta := by
      norm_num
    rw [h1, hbb] at hb
    cases hb
    rw [hw, div_self hbb0.ne']
  · obtain ⟨b, hb, hb1, hw⟩ := hval j hj1 hjn
    refine ⟨_, hw, div_pos (lt_of_lt_of_le one_pos hb1) hbb0, (div_le_one hbb0).2 ?_⟩
    have habs : |beta * Real.sqrt (1 - (((j : ℝ) - 1) / ((tablelen : ℝ) - 1)) ^ 2)| ≤ |beta| := by
      rw [abs_mul]
      exact mul_le_of_le_one_right (abs_nonneg _)
        (abs_sqrt_le_one _ (sub_le_self _ (sq_nonneg _)))
    obtain ⟨ra, hra, -, hle⟩ := bessel_le_of_abs_le habs hbb
    rw [hb] at hra
    cases hra
    exact hle
  · obtain ⟨ba, hba, -, hwa⟩ := hval k hk1 (by omega)
    obtain ⟨bc, hbc, -, hwc⟩ := hval (tablelen - 1 - k) (by omega) (by omega)
    obtain ⟨hk0, -⟩ := harg k hk1 (by omega)
    obtain ⟨hc0, hc1⟩ := harg (tablelen - 1 - k) (by omega) (by omega)
    have hkc : ((k : ℝ) - 1) / ((tablelen : ℝ) - 1) ≤
        (((tablelen - 1 - k : Nat) : ℝ) - 1) / ((tablelen : ℝ) - 1) := by
      apply div_le_div_of_nonneg_right _ hn.le
      have : (k : ℝ) ≤ ((tablelen - 1 - k : Nat) : ℝ) := by exact_mod_cast hk
      linarith
    have hsq : Real.sqrt (1 - ((((tablelen - 1 - k : Nat) : ℝ) - 1) / ((tablelen : ℝ) - 1)) ^ 2) ≤
        Real.sqrt (1 - (((k : ℝ) - 1) / ((tablelen : ℝ) - 1)) ^ 2) := by
      apply Real.sqrt_le_sqrt
      have := pow_le_pow_left₀ hk0 hkc 2
      linarith
    have habs : |beta * Real.sqrt
          (1 - ((((tablelen - 1 - k : Nat) : ℝ) - 1) / ((tablelen : ℝ) - 1)) ^ 2)| ≤
        |beta * Real.sqrt (1 - (((k : ℝ) - 1) / ((tablelen : ℝ) - 1)) ^ 2)| := by
      rw [abs_mul, abs_mul, abs_of_nonneg (Real.sqrt_nonneg _),
        abs_of_nonneg (Real.sqrt_nonneg _)]
      exact mul_le_mul_of_nonneg_left hsq (abs_nonneg _)
    refine ⟨_, _, hwa, hwc, ?_, fun hlt hterm => ?_⟩
    · obtain ⟨ra, hra, -, hle⟩ := bessel_le_of_abs_le habs hba
      rw [hbc] at hra
      cases hra
      exact div_le_div_of_nonneg_right hle hbb0.le
    · have hb0 : beta ≠ 0 := by
        rintro rfl
        apply hterm
        norm_num
      have hkc' : ((k : ℝ) - 1) / ((tablelen : ℝ) - 1) <
          (((tablelen - 1 - k : Nat) : ℝ) - 1) / ((tablelen : ℝ) - 1) := by
        apply div_lt_div_of_pos_right _ hn
        have : (k : ℝ) < ((tablelen - 1 - k : Nat) : ℝ) := by exact_mod_cast hlt
        linarith
      have hsq' : Real.sqrt
            (1 - ((((tablelen - 1 - k : Nat) : ℝ) - 1) / ((tablelen : ℝ) - 1)) ^ 2) <
          Real.sqrt (1 - (((k : ℝ) - 1) / ((tablelen : ℝ) - 1)) ^ 2) := by
        apply Real.sqrt_lt_sqrt
        · have := pow_lt_one₀ hc0 hc1 (two_ne_zero)
          linarith
        · have := pow_lt_pow_left₀ hkc' hk0 (two_ne_zero)
          linarith
      have habs' : |beta * Real.sqrt
            (1 - ((((tablelen - 1 - k : Nat) : ℝ) - 1) / ((tablelen : ℝ) - 1)) ^ 2)| <
          |beta * Real.sqrt (1 - (((k : ℝ) - 1) / ((tablelen : ℝ) - 1)) ^ 2)| := by
        rw [abs_mul, abs_mul, abs_of_nonneg (Real.sqrt_nonneg _),
          abs_of_nonneg (Real.sqrt_nonneg _)]
        exact mul_lt_mul_of_pos_left hsq' (abs_pos.2 hb0)
      have hb1 : ¬ besselTerm
          (beta * Real.sqrt (1 - (((k : ℝ) - 1) / ((tablelen : ℝ) - 1)) ^ 2) / 2) 1
            < besselThreshold := by
        have he : besselTerm
            (beta * Real.sqrt (1 - (((k : ℝ) - 1) / ((tablelen : ℝ) - 1)) ^ 2) / 2) 1 =
            (beta * Real.sqrt (1 - (((k : ℝ) - 1) / ((tablelen : ℝ) - 1)) ^ 2) / 2) ^ 2 := by
          simp [besselTerm]
        rw [he]
        exact hterm
      obtain ⟨ra, hra, -, hlt'⟩ := bessel_lt_of_abs_lt habs' hb1 hba
      rw [hbc] at hra
      cases hra
      exact div_lt_div_of_pos_right hlt' hbb0

/-- The instance of the amended C10 at the input of the counterexample,
`tablelen = 5`, `beta = 2`, zeroed table: index 1 holds the peak 1, and the
value at index `lenm1 - 1 = 3` is strictly below the value at index 1. -/
theorem kaiserWindow_decaying_half_witness :
    (∃ N, ∀ fuel, N ≤ fuel →
      ∃ window, kaiserWindow Real.sqrt fuel [0, 0, 0, 0, 0] 5 (2 : ℝ) = some window) ∧
    ∀ (fuel : Nat) (window : List ℝ),
      kaiserWindow Real.sqrt fuel [0, 0, 0, 0, 0] 5 (2 : ℝ) = some window →
      window[1]? = some 1 ∧
      (∀ j, 1 ≤ j → j ≤ 5 - 1 → ∃ v, window[j]? = some v ∧ 0 < v ∧ v ≤ 1) ∧
      ∃ a b, window[1]? = some a ∧ window[5 - 1 - 1]? = some b ∧ b < a := by
  have h := kaiserWindow_decaying_half [0, 0, 0, 0, 0] 5 (2 : ℝ) (by decide) (by decide) rfl
  refine ⟨h.1, fun fuel window hw => ?_⟩
  obtain ⟨h1, h2, h3⟩ := h.2 fuel window hw
  obtain ⟨a, b, ha, hb, -, hlt⟩ := h3 1 (by decide) (by decide)
  refine ⟨h1, h2, a, b, ha, hb, hlt (by decide) ?_⟩
  norm_num

end Resampler
